import Mathlib

/-!
Verification development for the dts_visualizer device-tree core:
a shallow embedding of `parser.py`, `exporter.py`, `bindings.py` and the
cross-reference/classifier routines of `ui_mainwindow.py`, together with a
serializer modelled from the specification (the `serializer` module is not
among the sources).  Strings are modelled as `List Char`; Python dicts as
association lists preserving insertion order; Python exceptions as `Option`.
-/

/-- Convert a Lean string literal to the `List Char` representation used
throughout this development. -/
def str (s : String) : List Char := s.data

/-! ## Python string primitives -/

/-- The characters Python treats as whitespace (the `isspace` set): exactly
the set that `str.strip()` removes, `str.split()` splits on, and the `re`
class `\s` matches on `str`. -/
def pySpaceChars : List Char :=
  ['\x09', '\x0a', '\x0b', '\x0c', '\x0d', '\x1c',
   '\x1d', '\x1e', '\x1f', ' ', '\x85', '\xa0',
   '\u1680', '\u2000', '\u2001', '\u2002', '\u2003', '\u2004',
   '\u2005', '\u2006', '\u2007', '\u2008', '\u2009', '\u200a',
   '\u2028', '\u2029', '\u202f', '\u205f', '\u3000']

/-- Whitespace as recognised by Python `str.strip` / `str.split` / `\s`. -/
def isPySpace (c : Char) : Bool := pySpaceChars.contains c

/-- The characters on which Python `str.splitlines` breaks a line
(`\r\n` is treated as a single break by `splitLines`). -/
def lineBreakChars : List Char :=
  ['\x0a', '\x0b', '\x0c', '\x0d', '\x1c', '\x1d',
   '\x1e', '\x85', '\u2028', '\u2029']

/-- Line-break test of Python `str.splitlines`. -/
def isLineBreak (c : Char) : Bool := lineBreakChars.contains c

/-- Python `str.strip()`: drop leading and trailing whitespace. -/
def pyStrip (cs : List Char) : List Char :=
  ((cs.dropWhile isPySpace).reverse.dropWhile isPySpace).reverse

/-- Python `str.strip('"')`: drop all leading and trailing double quotes. -/
def stripQuotes (cs : List Char) : List Char :=
  ((cs.dropWhile (· = '"')).reverse.dropWhile (· = '"')).reverse

/-- Python `str.rstrip('/')`: drop all trailing slashes. -/
def rstripSlash (cs : List Char) : List Char :=
  (cs.reverse.dropWhile (· = '/')).reverse

theorem dropWhileLengthLe {α : Type} (p : α → Bool) (l : List α) :
    (l.dropWhile p).length ≤ l.length := by
  induction l with
  | nil => simp
  | cons a as ih =>
    by_cases h : p a
    · simp only [List.dropWhile, h]; simp; omega
    · simp only [List.dropWhile, h]; simp

/-- Python `str.split()` with no argument: maximal runs of non-whitespace.
Recursion is driven by fuel so that the definition is structural and reduces
definitionally; `pyWords` passes the list length, which always suffices
because every round consumes at least one character. -/
def pyWordsF : Nat → List Char → List (List Char)
  | 0, _ => []
  | fuel + 1, cs =>
      match cs.dropWhile isPySpace with
      | [] => []
      | c :: rest =>
          (c :: rest.takeWhile (fun d => ¬ isPySpace d)) ::
            pyWordsF fuel (rest.dropWhile (fun d => ¬ isPySpace d))

def pyWords (cs : List Char) : List (List Char) := pyWordsF cs.length cs

/-- `" ".join(tokens)`. -/
def joinSp : List (List Char) → List Char
  | [] => []
  | [t] => t
  | t :: ts => t ++ ' ' :: joinSp ts

/-- `"\n".join(lines)`. -/
def joinNL : List (List Char) → List Char
  | [] => []
  | [t] => t
  | t :: ts => t ++ '\n' :: joinNL ts

/-- Python `str.splitlines()`: split on line-break characters, treating
`\r\n` as one break and producing no trailing empty line.  Fuel-structural
as in `pyWordsF`; `splitLines` passes the list length. -/
def splitLinesF : Nat → List Char → List (List Char)
  | _, [] => []
  | 0, _ :: _ => []
  | fuel + 1, c0 :: rest0 =>
      let line := (c0 :: rest0).takeWhile (fun c => ¬ isLineBreak c)
      match (c0 :: rest0).dropWhile (fun c => ¬ isLineBreak c) with
      | [] => [line]
      | b :: rest1 =>
          if b = '\r' ∧ rest1.head? = some '\n' then line :: splitLinesF fuel rest1.tail
          else line :: splitLinesF fuel rest1

def splitLines (cs : List Char) : List (List Char) := splitLinesF cs.length cs

/-- Ordered-dict lookup (`d.get(k)`). -/
def assocGet {α : Type} (m : List (List Char × α)) (k : List Char) : Option α :=
  match m with
  | [] => none
  | (k2, v) :: rest => if k2 = k then some v else assocGet rest k

/-- Ordered-dict assignment (`d[k] = v`): overwrite in place, else append. -/
def assocSet {α : Type} (m : List (List Char × α)) (k : List Char) (v : α) :
    List (List Char × α) :=
  match m with
  | [] => [(k, v)]
  | (k2, v2) :: rest =>
      if k2 = k then (k2, v) :: rest else (k2, v2) :: assocSet rest k v

/-- Integer-keyed dict lookup. -/
def assocGetI {α : Type} (m : List (Int × α)) (k : Int) : Option α :=
  match m with
  | [] => none
  | (k2, v) :: rest => if k2 = k then some v else assocGetI rest k

/-- Integer-keyed dict assignment: overwrite in place, else append. -/
def assocSetI {α : Type} (m : List (Int × α)) (k : Int) (v : α) : List (Int × α) :=
  match m with
  | [] => [(k, v)]
  | (k2, v2) :: rest =>
      if k2 = k then (k2, v) :: rest else (k2, v2) :: assocSetI rest k v

/-- `list(dict.fromkeys(xs))`: dedup keeping first occurrences in order. -/
def dedupKeepFirst {α : Type} [DecidableEq α] (xs : List α) : List α :=
  go [] xs
where
  go (seen : List α) : List α → List α
  | [] => []
  | x :: rest => if x ∈ seen then go seen rest else x :: go (seen ++ [x]) rest

/-! ## Python `int(token, 0)` (C-prefixed integer literals, base 0) -/

/-- Digit value in the given base (`0-9`, `a-f`, `A-F`). -/
def digitVal (base : Nat) (c : Char) : Option Nat :=
  let v : Option Nat :=
    if '0' ≤ c ∧ c ≤ '9' then some (c.toNat - '0'.toNat)
    else if 'a' ≤ c ∧ c ≤ 'f' then some (c.toNat - 'a'.toNat + 10)
    else if 'A' ≤ c ∧ c ≤ 'F' then some (c.toNat - 'A'.toNat + 10)
    else none
  match v with
  | some d => if d < base then some d else none
  | none => none

/-- Digit run with single underscores allowed between digits (and a single
underscore allowed in head position only when the caller permits it, as
after a `0x` prefix).  Rejects trailing or doubled underscores. -/
def digitRun (base : Nat) (acc : Nat) : List Char → Option Nat
  | [] => some acc
  | c :: rest =>
      if c = '_' then
        match rest with
        | [] => none
        | d :: rest2 =>
            match digitVal base d with
            | some dv => digitRun base (acc * base + dv) rest2
            | none => none
      else
        match digitVal base c with
        | some d => digitRun base (acc * base + d) rest
        | none => none

/-- Unsigned body of Python `int(s, 0)`: prefixed `0x`/`0o`/`0b` forms,
plain decimal, and the leading-zero rule (`0`, `00`, `0_0` are zero;
`010` raises `ValueError`, modelled as `none`). -/
def pyIntBody (cs : List Char) : Option Nat :=
  match cs with
  | [] => none
  | c :: rest =>
      if c = '0' then
        match rest with
        | [] => digitRun 10 0 cs
        | d :: rest2 =>
            if d = 'x' ∨ d = 'X' then if rest2 = [] then none else digitRun 16 0 rest2
            else if d = 'o' ∨ d = 'O' then if rest2 = [] then none else digitRun 8 0 rest2
            else if d = 'b' ∨ d = 'B' then if rest2 = [] then none else digitRun 2 0 rest2
            else
              match digitRun 10 0 cs with
              | none => none
              | some v =>
                  if cs.any (fun e => e.isDigit && e != '0') then none else some v
      else if c.isDigit then digitRun 10 0 cs else none

/-- Python `int(token, 0)`: optional surrounding whitespace, optional single
sign, then a base-0 literal. -/
def pyInt (t : List Char) : Option Int :=
  match pyStrip t with
  | [] => none
  | c :: rest =>
      if c = '+' then (pyIntBody rest).map (fun n => (n : Int))
      else if c = '-' then (pyIntBody rest).map (fun n => -(n : Int))
      else (pyIntBody (c :: rest)).map (fun n => (n : Int))

/-! ## Tree model (`model.py`)

`DTNode` mirrors `model.DTNode` (the `parent` back-pointer is represented
implicitly by the tree structure; paths are stored as in the source).
The list of children is a mutual inductive so that structural recursion
over the tree reduces definitionally. -/

mutual
inductive DTNode : Type where
  | mk (name : List Char) (path : List Char)
       (properties : List (List Char × List Char)) (children : DTNodeList)
inductive DTNodeList : Type where
  | nil
  | cons (head : DTNode) (tail : DTNodeList)
end

def DTNode.name : DTNode → List Char
  | .mk n _ _ _ => n

def DTNode.path : DTNode → List Char
  | .mk _ p _ _ => p

def DTNode.properties : DTNode → List (List Char × List Char)
  | .mk _ _ pr _ => pr

def DTNode.children : DTNode → DTNodeList
  | .mk _ _ _ cs => cs

def DTNodeList.toList : DTNodeList → List DTNode
  | .nil => []
  | .cons c cs => c :: cs.toList

def DTNodeList.ofList : List DTNode → DTNodeList
  | [] => .nil
  | c :: cs => .cons c (DTNodeList.ofList cs)

def DTNodeList.append : DTNodeList → DTNodeList → DTNodeList
  | .nil, ys => ys
  | .cons x xs, ys => .cons x (xs.append ys)

mutual
/-- Structural equality of nodes (used to model CPython object identity in
contexts where all participating nodes are pairwise distinct objects). -/
def nodeBEq : DTNode → DTNode → Bool
  | .mk n1 p1 pr1 c1, .mk n2 p2 pr2 c2 =>
      n1 == n2 && p1 == p2 && pr1 == pr2 && kidsBEq c1 c2
def kidsBEq : DTNodeList → DTNodeList → Bool
  | .nil, .nil => true
  | .cons a as, .cons b bs => nodeBEq a b && kidsBEq as bs
  | .nil, .cons _ _ => false
  | .cons _ _, .nil => false
end

theorem sizeOfLtOfMemToList : ∀ (cs : DTNodeList), ∀ c ∈ cs.toList, sizeOf c < sizeOf cs
  | .nil, c, hc => by simp [DTNodeList.toList] at hc
  | .cons a as, c, hc => by
      simp only [DTNodeList.toList, List.mem_cons] at hc
      rcases hc with hc | hc
      · subst hc; simp [DTNodeList.cons.sizeOf_spec]; omega
      · have := sizeOfLtOfMemToList as c hc
        simp only [DTNodeList.cons.sizeOf_spec]
        omega

/-- Induction over a node with the hypothesis available for every child. -/
theorem DTNode.strongInd (P : DTNode → Prop)
    (h : ∀ name path props children,
      (∀ c ∈ DTNodeList.toList children, P c) →
      P (.mk name path props children)) :
    ∀ n, P n := by
  have key : ∀ s : Nat, ∀ n : DTNode, sizeOf n ≤ s → P n := by
    intro s
    induction s with
    | zero =>
      intro n hn
      cases n with
      | mk nm p pr cs => simp [DTNode.mk.sizeOf_spec] at hn
    | succ s ih =>
      intro n hn
      cases n with
      | mk nm p pr cs =>
        apply h
        intro c hc
        apply ih
        have hlt : sizeOf c < sizeOf cs := sizeOfLtOfMemToList cs c hc
        simp only [DTNode.mk.sizeOf_spec] at hn
        omega
  intro n
  exact key (sizeOf n) n le_rfl

/-! ## DTS parser (`parser.py`)

The three class-level regexes are embedded as deterministic character-level
matchers.  Each regex is unambiguous because its character classes exclude
whitespace and the delimiter that follows, so greedy maximal-munch scanning
coincides with the backtracking semantics. -/

/-- Character class `[A-Za-z0-9_,.@-]` of `node_start_re`/`node_with_name_re`. -/
def isNameChar (c : Char) : Bool :=
  c.isAlphanum || c = '_' || c = ',' || c = '.' || c = '@' || c = '-'

/-- Character class `[A-Za-z0-9_,.+@/#-]` of `property_re`. -/
def isKeyChar (c : Char) : Bool :=
  isNameChar c || c = '+' || c = '/' || c = '#'

/-- Does the list end with the given character? -/
def lastIs (cs : List Char) (c : Char) : Bool :=
  match cs.reverse with
  | [] => false
  | d :: _ => d = c

/-- `node_start_re.match(line)`: `^\s*([A-Za-z0-9_,.@-]+)?\s*\x7b\s*$`;
returns the optional name group on success. -/
def nodeStartMatch (line : List Char) : Option (Option (List Char)) :=
  let rest1 := line.dropWhile isPySpace
  let nm := rest1.takeWhile isNameChar
  let rest2 := (rest1.dropWhile isNameChar).dropWhile isPySpace
  match rest2 with
  | c :: rest3 =>
      if c = '\x7b' ∧ rest3.all isPySpace then
        some (if nm = [] then none else some nm)
      else none
  | [] => none

/-- `node_with_name_re.match(line)`:
`^\s*([A-Za-z0-9_,.@-]+)\s*:\s*([A-Za-z0-9_,.@-]+)?\s*\x7b\s*$`;
returns the label group and the optional name group. -/
def nodeWithNameMatch (line : List Char) : Option (List Char × Option (List Char)) :=
  let rest1 := line.dropWhile isPySpace
  let lbl := rest1.takeWhile isNameChar
  if lbl = [] then none
  else
    let rest2 := (rest1.dropWhile isNameChar).dropWhile isPySpace
    match rest2 with
    | c :: rest3 =>
        if c = ':' then
          let rest4 := rest3.dropWhile isPySpace
          let nm := rest4.takeWhile isNameChar
          let rest5 := (rest4.dropWhile isNameChar).dropWhile isPySpace
          match rest5 with
          | c2 :: rest6 =>
              if c2 = '\x7b' ∧ rest6.all isPySpace then
                some (lbl, if nm = [] then none else some nm)
              else none
          | [] => none
        else none
    | [] => none

/-- Split around the last semicolon: `some (before, after)`. -/
def splitLastSemi (cs : List Char) : Option (List Char × List Char) :=
  let r := cs.reverse
  let suf := r.takeWhile (· ≠ ';')
  match r.dropWhile (· ≠ ';') with
  | ';' :: before => some (before.reverse, suf.reverse)
  | _ => none

/-- `property_re.match(line)`: `^\s*([A-Za-z0-9_,.+@/#-]+)\s*=\s*(.*?);\s*$`.
The non-greedy value group together with the anchored tail is equivalent to
splitting at the last semicolon, requiring a purely-whitespace suffix, and a
value free of newlines (`.` does not match `\n`). -/
def propertyMatch (line : List Char) : Option (List Char × List Char) :=
  let rest1 := line.dropWhile isPySpace
  let key := rest1.takeWhile isKeyChar
  if key = [] then none
  else
    let rest2 := (rest1.dropWhile isKeyChar).dropWhile isPySpace
    match rest2 with
    | c :: rest3 =>
        if c = '=' then
          let rest4 := rest3.dropWhile isPySpace
          match splitLastSemi rest4 with
          | some (val, suf) =>
              if suf.all isPySpace ∧ ¬ val.contains '\n' then some (key, val) else none
          | none => none
        else none
    | [] => none

/-- Position just after the first `*/`, if any. -/
def findStarSlash : List Char → Option (List Char)
  | [] => none
  | c :: rest =>
      if c = '*' ∧ rest.head? = some '/' then some rest.tail
      else findStarSlash rest

theorem findStarSlashLength :
    ∀ cs rest, findStarSlash cs = some rest → rest.length + 2 ≤ cs.length := by
  intro cs
  induction cs with
  | nil => intro rest h; simp [findStarSlash] at h
  | cons a as ih =>
    intro rest h
    simp only [findStarSlash] at h
    by_cases hc : a = '*' ∧ as.head? = some '/'
    · rw [if_pos hc] at h
      cases h
      obtain ⟨-, h2⟩ := hc
      cases as with
      | nil => simp at h2
      | cons b bs => simp
    · rw [if_neg hc] at h
      have := ih rest h
      simp only [List.length_cons]
      omega

/-- `re.sub(r"/\*.*?\*/", " ", text, flags=re.S)`: each block comment is
replaced by one space; an opener with no closer anywhere is left untouched
(and then no later opener can match either, since any closer after it would
also have closed the earlier opener).  Fuel-structural; the entry point
passes the list length, which suffices since each step consumes a
character. -/
def stripBlockCommentsF : Nat → List Char → List Char
  | _, [] => []
  | 0, cs => cs
  | fuel + 1, c :: rest =>
      match rest with
      | [] => [c]
      | d :: rest2 =>
          if c = '/' ∧ d = '*' then
            match findStarSlash rest2 with
            | some rest3 => ' ' :: stripBlockCommentsF fuel rest3
            | none => c :: d :: rest2
          else c :: stripBlockCommentsF fuel (d :: rest2)

def stripBlockComments (cs : List Char) : List Char := stripBlockCommentsF cs.length cs

/-- `re.sub(r"//.*", " ", text)`: from `//` to the end of the line.
Fuel-structural as above. -/
def stripLineCommentsF : Nat → List Char → List Char
  | _, [] => []
  | 0, cs => cs
  | fuel + 1, c :: rest =>
      match rest with
      | [] => [c]
      | d :: rest2 =>
          if c = '/' ∧ d = '/' then
            ' ' :: stripLineCommentsF fuel (rest2.dropWhile (· ≠ '\n'))
          else c :: stripLineCommentsF fuel (d :: rest2)

def stripLineComments (cs : List Char) : List Char := stripLineCommentsF cs.length cs

/-- Comment removal, block comments first, as in `DTSParser._tokenize`. -/
def stripComments (cs : List Char) : List Char :=
  stripLineComments (stripBlockComments cs)

/-- Flush condition of `_tokenize`: the joined buffer ends with `\x7b`,
equals `\x7d;`, or ends with `;`. -/
def flushCond (joined : List Char) : Bool :=
  lastIs joined '\x7b' || joined = str "\x7d;" || lastIs joined ';'

/-- The statement re-flow loop of `_tokenize`. -/
def bufferLines (ls : List (List Char)) : List (List Char) :=
  go [] ls
where
  go (buf : List (List Char)) : List (List Char) → List (List Char)
  | [] => if buf = [] then [] else [joinSp buf]
  | raw :: rest =>
      let line := pyStrip raw
      if line = [] then go buf rest
      else
        let buf2 := buf ++ [line]
        let joined := joinSp buf2
        if flushCond joined then joined :: go [] rest else go buf2 rest

/-- `DTSParser._tokenize`. -/
def pyTokenize (text : List Char) : List (List Char) :=
  bufferLines (splitLines (stripComments text))

/-! The statement-walking loop of `DTSParser.parse`, as a fold over an
explicit stack of frames under construction.  In the source, a node object
is attached to its parent at creation and then mutated in place; here the
finished node is attached when its frame is popped (or at end of input),
which builds the same tree. -/

structure PFrame where
  name : List Char
  path : List Char
  props : List (List Char × List Char)
  kids : List DTNode

def frameClose (f : PFrame) : DTNode :=
  .mk f.name f.path f.props (.ofList f.kids)

/-- Path synthesis for a new child:
`parent.path.rstrip("/") + "/" + name if parent.path != "/" else "/" + name`. -/
def mkPath (pp : List Char) (nm : List Char) : List Char :=
  if pp ≠ str "/" then rstripSlash pp ++ '/' :: nm else '/' :: nm

/-- Node-name selection for a statement ending in `\x7b`:
`label: name \x7b` (name defaulting to label), else `name \x7b`
(defaulting to `node`), else the literal `node`. -/
def nodeNameOf (line : List Char) : List Char :=
  match nodeWithNameMatch line with
  | some (lbl, nm?) => nm?.getD lbl
  | none =>
      match nodeStartMatch line with
      | some nm? => nm?.getD (str "node")
      | none => str "node"

/-- One iteration of the statement loop of `DTSParser.parse`. -/
def stepLine (st : PFrame × List PFrame) (rawLine : List Char) : PFrame × List PFrame :=
  let line := pyStrip rawLine
  if line = [] then st
  else if lastIs line '\x7b' then
    if line.head? = some '/' then st
    else
      let nm := nodeNameOf line
      (⟨nm, mkPath st.1.path nm, [], []⟩, st.1 :: st.2)
  else if line = str "\x7d;" then
    match st with
    | (t, []) => (t, [])
    | (t, p :: r) => ({ p with kids := p.kids ++ [frameClose t] }, r)
  else
    match propertyMatch line with
    | some (k, v0) =>
        let v1 := pyStrip v0
        let v2 := if v1.head? = some '"' ∧ lastIs v1 '"' then stripQuotes v1 else v1
        ({ st.1 with props := assocSet st.1.props k v2 }, st.2)
    | none => st

/-- Close every still-open frame at end of input (the parent links were
already established in the source; here we attach on the way out). -/
def collapseStack : List PFrame → PFrame → DTNode
  | [], t => frameClose t
  | p :: r, t => collapseStack r ({ p with kids := p.kids ++ [frameClose t] })

def rootFrame : PFrame := ⟨str "/", str "/", [], []⟩

/-- `DTSParser.parse` applied to an already-tokenized statement list. -/
def parseTokens (ls : List (List Char)) : DTNode :=
  let st := ls.foldl stepLine (rootFrame, [])
  collapseStack st.2 st.1

/-- `DTSParser.parse`. -/
def dtsParse (text : List Char) : DTNode :=
  parseTokens (pyTokenize text)

/-! ## Full-tree serializer

Modelled from the spec: the `serializer` module (imported by
`ui_mainwindow.py` as `from .serializer import serialize`) is absent from
the sources.  Spec section 4.7: same node/property emission rules as the
exporter but without phandle rewriting or label synthesis; properties
(including `phandle`) are emitted verbatim; output is newline-terminated. -/

/-- `_indent`: two spaces per level. -/
def indentOf (n : Nat) : List Char := List.replicate (2 * n) ' '

def serOpenLine (lvl : Nat) (nm : List Char) : List Char :=
  indentOf lvl ++ nm ++ str " \x7b"

def serPropLine (lvl : Nat) (k v : List Char) : List Char :=
  indentOf lvl ++ k ++ str " = " ++ v ++ [';']

def serCloseLine (lvl : Nat) : List Char :=
  indentOf lvl ++ str "\x7d;"

mutual
def serNode : DTNode → Nat → List (List Char)
  | .mk nm _ pr cs, lvl =>
      serOpenLine lvl nm ::
      (pr.map (fun kv => serPropLine (lvl + 1) kv.1 kv.2) ++
       serKids cs (lvl + 1) ++ [serCloseLine lvl])
def serKids : DTNodeList → Nat → List (List Char)
  | .nil, _ => []
  | .cons c cs, lvl => serNode c lvl ++ serKids cs lvl
end

/-- Modelled from the spec: `serialize(tree)` of the absent `serializer`
module (spec section 4.7 and section 6). -/
def serializeTree (root : DTNode) : List Char :=
  joinNL (serNode root 0) ++ ['\n']

/-! ## Subtree exporter (`exporter.py`) -/

mutual
/-- The `collect` closure of `export_dtsi`: pre-order subtree listing. -/
def collectNodes : DTNode → List DTNode
  | .mk nm p pr cs => .mk nm p pr cs :: collectKids cs
def collectKids : DTNodeList → List DTNode
  | .nil => []
  | .cons c cs => collectNodes c ++ collectKids cs
end

/-- Split at the first occurrence of a character: `some (before, after)`. -/
def breakAt (t : Char) : List Char → Option (List Char × List Char)
  | [] => none
  | c :: rest =>
      if c = t then some ([], rest)
      else
        match breakAt t rest with
        | some (a, b) => some (c :: a, b)
        | none => none

theorem breakAtLength {t : Char} :
    ∀ cs a b, breakAt t cs = some (a, b) → a.length + 1 + b.length = cs.length := by
  intro cs
  induction cs with
  | nil => intro a b h; simp [breakAt] at h
  | cons c rest ih =>
    intro a b h
    simp only [breakAt] at h
    by_cases hc : c = t
    · rw [if_pos hc] at h
      cases h
      simp
      omega
    · rw [if_neg hc] at h
      cases he : breakAt t rest with
      | none => rw [he] at h; cases h
      | some p =>
        obtain ⟨a2, b2⟩ := p
        rw [he] at h
        cases h
        have := ih _ _ he
        simp only [List.length_cons]
        omega

/-- The match structure of `re.sub(r"<([^>]*)>", ..., v)` / `re.findall`:
a list of (text before the group, group content) pairs plus trailing text.
A `<` is the start of a match exactly when some `>` follows it; the content
is everything up to the first `>`. -/
def splitGroupsF : Nat → List Char → List (List Char × List Char) × List Char
  | 0, cs => ([], cs)
  | fuel + 1, cs =>
      match breakAt '<' cs with
      | none => ([], cs)
      | some (pre, rest) =>
          match breakAt '>' rest with
          | none => ([], cs)
          | some (content, rest2) =>
              let pt := splitGroupsF fuel rest2
              ((pre, content) :: pt.1, pt.2)

def splitGroups (cs : List Char) : List (List Char × List Char) × List Char :=
  splitGroupsF cs.length cs

/-- `re.findall(r"<([^>]*)>", s)`. -/
def findGroups (s : List Char) : List (List Char) :=
  (splitGroups s).1.map Prod.snd

/-- All whitespace-separated tokens inside `<...>` groups of a string. -/
def groupTokens (s : List Char) : List (List Char) :=
  (findGroups s).flatMap pyWords

/-- `_parse_cells` (exporter.py; `MainWindow._parse_cells` is identical):
every token of every `<...>` group that `int(tok, 0)` accepts.
`grp.strip().split()` equals `pyWords grp`. -/
def parseCellsVal (val : List Char) : List Int :=
  (findGroups val).flatMap (fun g => (pyWords g).filterMap pyInt)

/-- `_parse_cells` on an optional value (`if not val: return []`;
both `None` and the empty string are falsy). -/
def parseCellsOpt (v : Option (List Char)) : List Int :=
  match v with
  | none => []
  | some s => if s.isEmpty then [] else parseCellsVal s

/-- `_parse_single_cell`. -/
def parseSingleCell (v : Option (List Char)) : Option Int :=
  (parseCellsOpt v).head?

/-- `_sanitize_label`: drop the unit address, replace characters outside
`[A-Za-z0-9_]` by `_`, and force a `[A-Za-z_]` start. -/
def sanitizeLabel (nm : List Char) : List Char :=
  let s := nm.takeWhile (· ≠ '@')
  let s := s.map (fun c => if c.isAlphanum || c = '_' then c else '_')
  match s with
  | [] => str "_n"
  | c :: rest => if c.isAlpha || c = '_' then c :: rest else '_' :: c :: rest

/-- Lowercase hex digit. -/
def hexDigitChar (d : Nat) : Char :=
  if d < 10 then Char.ofNat ('0'.toNat + d) else Char.ofNat ('a'.toNat + d - 10)

/-- Lowercase hex digits of a natural number (`f"{n:x}"` for `n ≥ 0`),
fuel-structural; `hexNat` passes `n + 1`, which bounds the digit count. -/
def hexNatF : Nat → Nat → List Char
  | 0, _ => []
  | fuel + 1, n =>
      if n < 16 then [hexDigitChar n]
      else hexNatF fuel (n / 16) ++ [hexDigitChar (n % 16)]

def hexNat (n : Nat) : List Char := hexNatF (n + 1) n

/-- `f"{ph:x}"` for a Python int (negative values print as `-hex`). -/
def hexInt (i : Int) : List Char :=
  if i < 0 then '-' :: hexNat i.natAbs else hexNat i.natAbs

/-- Decimal digits of a natural number, fuel-structural. -/
def decNatF : Nat → Nat → List Char
  | 0, _ => []
  | fuel + 1, n =>
      if n < 10 then [Char.ofNat ('0'.toNat + n)]
      else decNatF fuel (n / 10) ++ [Char.ofNat ('0'.toNat + n % 10)]

def decNat (n : Nat) : List Char := decNatF (n + 1) n

/-- The `ph_to_node` map of `export_dtsi`: phandle to subtree node,
in dict insertion order (later nodes with the same phandle overwrite). -/
def buildPhMap (ns : List DTNode) : List (Int × DTNode) :=
  ns.foldl
    (fun m n =>
      match parseSingleCell (assocGet n.properties (str "phandle")) with
      | some ph => assocSetI m ph n
      | none => m)
    []

/-- Collision loop of the label pass: `base_ph`, then `base_ph_2`,
`base_ph_3`, ... (`i` starts at 1 and is incremented before use).  The
fuel bound `used.length + 1` suffices because the candidates are pairwise
distinct. -/
def pickFreshGo (used : List (List Char)) (c0 : List Char) : Nat → Nat → List Char
  | 0, i => c0 ++ '_' :: decNat i
  | fuel + 1, i =>
      let c := c0 ++ '_' :: decNat i
      if c ∈ used then pickFreshGo used c0 fuel (i + 1) else c

def pickFresh (used : List (List Char)) (c0 : List Char) : List Char :=
  if c0 ∈ used then pickFreshGo used c0 (used.length + 1) 2 else c0

/-- The label-assignment loop of `export_dtsi`, iterating `ph_to_node`
in insertion order.  Labels are keyed here by phandle; in the source they
are keyed by node object, which is equivalent because each node owns at
most one phandle, so `ph_to_node` is injective on values. -/
def assignLabels : List (Int × DTNode) → List (List Char) → List (Int × List Char)
  | [], _ => []
  | (ph, n) :: rest, used =>
      let base := sanitizeLabel n.name
      let base := if base.isEmpty then str "node" else base
      let cand := pickFresh used (base ++ '_' :: hexInt ph)
      (ph, cand) :: assignLabels rest (used ++ [cand])

/-- Rewrite of one cell token inside `repl_group`. -/
def rwToken (phM : List (Int × DTNode)) (lblM : List (Int × List Char))
    (t : List Char) : List Char :=
  match pyInt t with
  | none => t
  | some num =>
      match assocGetI phM num with
      | none => t
      | some _ =>
          match assocGetI lblM num with
          | some lbl => '&' :: lbl
          | none => t

/-- Reassembly of the `re.sub` output from prefix/group pairs and tail. -/
def renderGroups (ps : List (List Char × List Char)) (tl : List Char) : List Char :=
  match ps with
  | [] => tl
  | (pre, g) :: rest => pre ++ '<' :: (g ++ '>' :: renderGroups rest tl)

/-- `_replace_phandles_in_value`. -/
def replacePhandlesInValue (v : List Char) (phM : List (Int × DTNode))
    (lblM : List (Int × List Char)) : List Char :=
  if ¬ v.contains '<' then v
  else
    let pt := splitGroups v
    renderGroups
      (pt.1.map (fun pg => (pg.1, joinSp ((pyWords pg.2).map (rwToken phM lblM))))) pt.2

/-- `labels.get(node)` at emission time: the node's label, present exactly
when the node is the `ph_to_node` entry for its own phandle. -/
def nodeLabelOf (phM : List (Int × DTNode)) (lblM : List (Int × List Char))
    (n : DTNode) : Option (List Char) :=
  match parseSingleCell (assocGet n.properties (str "phandle")) with
  | none => none
  | some ph =>
      match assocGetI phM ph with
      | some m => if nodeBEq m n then assocGetI lblM ph else none
      | none => none

mutual
/-- `_write_node_export`. -/
def writeNodeExport : DTNode → Nat → List (Int × List Char) → List (Int × DTNode) →
    List (List Char)
  | .mk nm p pr cs, lvl, lblM, phM =>
      let pfx :=
        match nodeLabelOf phM lblM (.mk nm p pr cs) with
        | some l => l ++ str ": "
        | none => []
      let openLine :=
        if lvl = 0 then pfx ++ nm ++ str " \x7b"
        else indentOf lvl ++ pfx ++ nm ++ str " \x7b"
      openLine ::
      (pr.filterMap
        (fun kv =>
          if kv.1 = str "phandle" then none
          else some (indentOf (lvl + 1) ++ kv.1 ++ str " = " ++
            replacePhandlesInValue kv.2 phM lblM ++ [';'])) ++
       writeKidsExport cs (lvl + 1) lblM phM ++ [indentOf lvl ++ str "\x7d;"])
def writeKidsExport : DTNodeList → Nat → List (Int × List Char) → List (Int × DTNode) →
    List (List Char)
  | .nil, _, _, _ => []
  | .cons c cs, lvl, lblM, phM =>
      writeNodeExport c lvl lblM phM ++ writeKidsExport cs lvl lblM phM
end

/-- `export_dtsi`. -/
def exportDtsi (root : DTNode) : List Char :=
  let subtree := collectNodes root
  let phM := buildPhMap subtree
  let lblM := assignLabels phM []
  joinNL ((str "// Exported from path: " ++ root.path) ::
    writeNodeExport root 0 lblM phM) ++ ['\n']

/-! ## Shape observations used by the round-trip claims -/

def nodeCount (n : DTNode) : Nat := (collectNodes n).length

def pathsOf (n : DTNode) : List (List Char) := (collectNodes n).map DTNode.path

/-- The lists of property keys of the nodes at a given path, in pre-order. -/
def propKeysAt (n : DTNode) (p : List Char) : List (List (List Char)) :=
  ((collectNodes n).filter (fun m => m.path == p)).map
    (fun m => m.properties.map Prod.fst)

/-! ## Binding schema index (`bindings.py`)

YAML documents, as produced by `yaml.safe_load`, are modelled by a mutual
inductive.  The directory walk and YAML parsing are I/O; `loadBindingsDocs`
receives the successfully parsed documents as a list, in scan order, and
mirrors the body of the `load_bindings` loop. -/

mutual
inductive Yaml : Type where
  | ystr (s : List Char)
  | yint (n : Int)
  | ybool (b : Bool)
  | ynull
  | yarr (xs : YamlList)
  | ymap (kvs : YamlKVs)
inductive YamlList : Type where
  | nil
  | cons (hd : Yaml) (tl : YamlList)
inductive YamlKVs : Type where
  | nil
  | cons (k : List Char) (v : Yaml) (tl : YamlKVs)
end

def yamlGet : YamlKVs → List Char → Option Yaml
  | .nil, _ => none
  | .cons k v tl, key => if k = key then some v else yamlGet tl key

/-- Python truthiness of a YAML value (`if not compatible_section`). -/
def yamlTruthy : Yaml → Bool
  | .ystr s => ¬ s.isEmpty
  | .yint n => n != 0
  | .ybool b => b
  | .ynull => false
  | .yarr .nil => false
  | .yarr (.cons _ _) => true
  | .ymap .nil => false
  | .ymap (.cons _ _ _) => true

mutual
def ySize : Yaml → Nat
  | .ystr _ => 1
  | .yint _ => 1
  | .ybool _ => 1
  | .ynull => 1
  | .yarr xs => 1 + ylSize xs
  | .ymap kvs => 1 + ykSize kvs
def ylSize : YamlList → Nat
  | .nil => 1
  | .cons h t => 1 + ySize h + ylSize t
def ykSize : YamlKVs → Nat
  | .nil => 1
  | .cons _ v t => 1 + ySize v + ykSize t
end

/-- `'/phandle' in ref`: substring test. -/
def containsSub (hay needle : List Char) : Bool :=
  if needle.isPrefixOf hay then true
  else
    match hay with
    | [] => false
    | _ :: rest => containsSub rest needle

/-- The strings of a YAML list (`[x for x in v if isinstance(x, str)]`). -/
def yamlStringsOf : YamlList → List (List Char)
  | .nil => []
  | .cons (.ystr s) tl => s :: yamlStringsOf tl
  | .cons _ tl => yamlStringsOf tl

/-- The elements of a YAML list as a plain list. -/
def yamlListToList : YamlList → List Yaml
  | .nil => []
  | .cons h t => h :: yamlListToList t

/-- The alternatives under a combinator key, when that key holds a list. -/
def combAlts (kvs : YamlKVs) (key : List Char) : List Yaml :=
  match yamlGet kvs key with
  | some (.yarr xs) => yamlListToList xs
  | _ => []

/-- `_extract_compatibles`, recursion bounded by fuel (structural recursion
cannot follow a `dict` lookup; the entry point passes `ySize`, which always
suffices because every recursive call descends into a strict subterm). -/
def extractCompatiblesF : Nat → Yaml → List (List Char)
  | 0, _ => []
  | fuel + 1, y =>
      if ¬ yamlTruthy y then []
      else
        match y with
        | .ymap kvs =>
            let r1 :=
              match yamlGet kvs (str "const") with
              | some (.ystr v) => [v]
              | _ => []
            let r2 :=
              match yamlGet kvs (str "enum") with
              | some (.yarr xs) => yamlStringsOf xs
              | _ => []
            let r3 :=
              (combAlts kvs (str "oneOf") ++ combAlts kvs (str "anyOf") ++
                combAlts kvs (str "allOf")).flatMap (extractCompatiblesF fuel)
            dedupKeepFirst (r1 ++ r2 ++ r3)
        | _ => []

def extractCompatiblesY (y : Yaml) : List (List Char) :=
  extractCompatiblesF (ySize y) y

/-- `_schema_is_phandle`, fuel-bounded like `extractCompatiblesF`. -/
def schemaIsPhandleF : Nat → Yaml → Bool
  | 0, _ => false
  | fuel + 1, y =>
      match y with
      | .ymap kvs =>
          (match yamlGet kvs (str "$ref") with
           | some (.ystr r) => containsSub r (str "/phandle")
           | _ => false) ||
          (match yamlGet kvs (str "items") with
           | some (.ymap ikvs) =>
               (match yamlGet ikvs (str "$ref") with
                | some (.ystr r) => containsSub r (str "/phandle")
                | _ => false)
           | _ => false) ||
          (combAlts kvs (str "oneOf")).any (schemaIsPhandleF fuel) ||
          (combAlts kvs (str "anyOf")).any (schemaIsPhandleF fuel) ||
          (combAlts kvs (str "allOf")).any (schemaIsPhandleF fuel)
      | _ => false

def schemaIsPhandle (y : Yaml) : Bool :=
  schemaIsPhandleF (ySize y) y

def insertIfAbsent (xs : List (List Char)) (x : List Char) : List (List Char) :=
  if x ∈ xs then xs else xs ++ [x]

/-- Walk of `properties` in `_extract_phandle_props`. -/
def collectPhandleProps : YamlKVs → List (List Char)
  | .nil => []
  | .cons name schema tl =>
      (if schemaIsPhandle schema then [name] else []) ++ collectPhandleProps tl

/-- Walk of `patternProperties`: a phandle-bearing `^pinctrl-` pattern
registers the wildcard marker `pinctrl-`. -/
def collectPatternProps : YamlKVs → List (List Char)
  | .nil => []
  | .cons pat schema tl =>
      (if schemaIsPhandle schema && List.isPrefixOf (str "^pinctrl-") pat
       then [str "pinctrl-"] else []) ++ collectPatternProps tl

/-- `_extract_phandle_props` (the Python `set` is modelled as an ordered
list of first insertions). -/
def extractPhandleProps (kvs : YamlKVs) : List (List Char) :=
  let fromProps :=
    match yamlGet kvs (str "properties") with
    | some (.ymap pkvs) => collectPhandleProps pkvs
    | _ => []
  let fromPatt :=
    match yamlGet kvs (str "patternProperties") with
    | some (.ymap pats) => collectPatternProps pats
    | _ => []
  (fromProps ++ fromPatt).foldl insertIfAbsent []

structure BindingsIndex : Type where
  compatToPhandleProps : List (List Char × List (List Char))

/-- `BindingsIndex.may_reference_phandle`. -/
def BindingsIndex.mayReferencePhandle (idx : BindingsIndex)
    (nodeCompat : List Char) (prop : List Char) : Bool :=
  if nodeCompat.isEmpty then false
  else
    match assocGet idx.compatToPhandleProps nodeCompat with
    | none => false
    | some props =>
        if props.isEmpty then false
        else if prop ∈ props then true
        else if List.isPrefixOf (str "pinctrl-") prop &&
            props.any (fun p => List.isPrefixOf (str "pinctrl-") p) then true
        else false

/-- The per-document body of the `load_bindings` loop, folded over the
parsed documents (unreadable or non-mapping documents are skipped). -/
def loadBindingsDocs (docs : List Yaml) : BindingsIndex :=
  ⟨docs.foldl
    (fun entries data =>
      match data with
      | .ymap kvs =>
          let comps := extractCompatiblesY ((yamlGet kvs (str "compatible")).getD .ynull)
          if comps.isEmpty then entries
          else
            let pp := extractPhandleProps kvs
            if pp.isEmpty then entries
            else
              comps.foldl
                (fun es comp =>
                  let s := (assocGet es comp).getD []
                  assocSet es comp (pp.foldl insertIfAbsent s))
                entries
      | _ => entries)
    []⟩

/-! ## Reference classifier (`ui_mainwindow.py`) -/

/-- The fixed allow-list of `MainWindow._prop_may_reference_phandle`. -/
def baseKeys : List (List Char) :=
  [str "interrupt-parent", str "clocks", str "dmas",
   str "pinctrl-0", str "pinctrl-1", str "pinctrl-2", str "iommus",
   str "assigned-clocks", str "assigned-clock-parents",
   str "resets", str "gpios", str "interrupts-extended",
   str "phys", str "power-domains", str "memory-region",
   str "thermal-sensors", str "remote-endpoint", str "sound-dai"]

/-- `MainWindow._prop_may_reference_phandle` (the heuristic fallback). -/
def propMayReferencePhandle (key : List Char) : Bool :=
  if key = str "phandle" || key = str "linux,phandle" then false
  else if key ∈ baseKeys then true
  else if List.isSuffixOf (str "-supply") key then true
  else if key = str "phy-handle" || key = str "phy" then true
  else if List.isSuffixOf (str "-gpios") key || List.isSuffixOf (str "-gpio") key then true
  else if List.isSuffixOf (str "-phandle") key || List.isSuffixOf (str "-phandles") key then true
  else if List.isPrefixOf (str "pinctrl-") key then true
  else false

/-- `MainWindow._node_prop_may_reference_phandle`: consult the bindings
index when one is loaded and the node's quote-stripped `compatible` is
non-empty; on a positive answer return true, otherwise fall back to the
heuristic. -/
def nodePropMayReferencePhandle (bidx : Option BindingsIndex) (n : DTNode)
    (key : List Char) : Bool :=
  let comp := stripQuotes (pyStrip ((assocGet n.properties (str "compatible")).getD []))
  match bidx with
  | some idx =>
      if comp.isEmpty then propMayReferencePhandle key
      else if idx.mayReferencePhandle comp key then true
      else propMayReferencePhandle key
  | none => propMayReferencePhandle key

/-! ## Cross-reference index and query (`ui_mainwindow.py`) -/

mutual
/-- `DTNode.find_by_path`. -/
def findByPath : DTNode → List Char → Option DTNode
  | .mk nm pp pr cs, p =>
      if pp = p then some (.mk nm pp pr cs) else findByPathKids cs p
def findByPathKids : DTNodeList → List Char → Option DTNode
  | .nil, _ => none
  | .cons c cs, p =>
      match findByPath c p with
      | some r => some r
      | none => findByPathKids cs p
end

def isIdentStart (c : Char) : Bool := c.isAlpha || c = '_'
def isIdentChar (c : Char) : Bool := c.isAlphanum || c = '_'

/-- `re.findall(r"&([A-Za-z_][A-Za-z0-9_]*)", val)`, fuel-structural. -/
def scanLabelsF : Nat → List Char → List (List Char)
  | 0, _ => []
  | fuel + 1, cs =>
      match cs with
      | [] => []
      | c :: rest =>
          if c = '&' then
            match rest with
            | [] => []
            | d :: rest2 =>
                if isIdentStart d then
                  (d :: rest2.takeWhile isIdentChar) ::
                    scanLabelsF fuel (rest2.dropWhile isIdentChar)
                else scanLabelsF fuel (d :: rest2)
          else scanLabelsF fuel rest

def scanLabels (cs : List Char) : List (List Char) := scanLabelsF cs.length cs

/-- The queryable state built by `MainWindow._build_index` (`root_node`,
`all_nodes`, `symbols_map`) together with the optional bindings index. -/
structure XrefState : Type where
  rootNode : DTNode
  allNodes : List DTNode
  symbolsMap : List (List Char × List Char)
  bindingsIndex : Option BindingsIndex

/-- `MainWindow._build_index`: pre-order node list and the symbols map
from a `__symbols__` child of the root, quote- and space-stripped, with
empty paths skipped. -/
def buildIndex (root : DTNode) (bidx : Option BindingsIndex) : XrefState :=
  let all := collectNodes root
  let symMap :=
    match (DTNodeList.toList root.children).find? (fun c => c.name == str "__symbols__") with
    | none => []
    | some s =>
        s.properties.foldl
          (fun m kv =>
            let p := stripQuotes (pyStrip kv.2)
            if p.isEmpty then m else assocSet m kv.1 p)
          []
  ⟨root, all, symMap, bidx⟩

/-- `MainWindow._extract_label_refs`: each `&label` resolved through the
symbols map to a path, then to a node, then to its first `phandle` cell. -/
def extractLabelRefs (st : XrefState) (v : List Char) : List Int :=
  (scanLabels v).filterMap
    (fun lbl =>
      match assocGet st.symbolsMap lbl with
      | none => none
      | some path =>
          match findByPath st.rootNode path with
          | none => none
          | some node => parseSingleCell (assocGet node.properties (str "phandle")))

/-- `MainWindow._extract_phandle_refs`: numeric cells plus resolved label
references, deduplicated preserving first occurrences. -/
def extractPhandleRefs (st : XrefState) (v : List Char) : List Int :=
  dedupKeepFirst (parseCellsOpt (some v) ++ (if v.isEmpty then [] else extractLabelRefs st v))

/-- `MainWindow._nodes_using` (`users_of`): no phandle means no users;
otherwise every other node with some classifier-approved property whose
reference set contains the target's phandle, in `all_nodes` order.
Object identity (`n is target`) is modelled by structural equality. -/
def nodesUsing (st : XrefState) (target : DTNode) : List DTNode :=
  match parseSingleCell (assocGet target.properties (str "phandle")) with
  | none => []
  | some tph =>
      st.allNodes.filter
        (fun n =>
          !nodeBEq n target &&
          n.properties.any
            (fun kv =>
              nodePropMayReferencePhandle st.bindingsIndex n kv.1 &&
              (extractPhandleRefs st kv.2).contains tph))

/-! ## Auxiliary definitions for the claim statements -/

/-- The bottom-most frame of the parser stack (`stack[0]` in the source). -/
def bottomFrame : PFrame → List PFrame → PFrame
  | t, [] => t
  | _, p :: r => bottomFrame p r

/-- Trailing text after the last complete `<...>` group: either no `<` at
all, or a `<` with no `>` anywhere after it. -/
def GTail (tl : List Char) : Prop :=
  breakAt '<' tl = none ∨
    ∃ a b, breakAt '<' tl = some (a, b) ∧ breakAt '>' b = none

/-! ## Concrete material for the claim scenarios -/

/-- Scenario source of claims C4 and C7 (spec section 8). -/
def c4text : List Char :=
  str "/ \x7b\n  provider: clk@0 \x7b\n    phandle = <0x10>;\n  \x7d;\n  consumer@1 \x7b\n    clocks = <0x10 0>;\n  \x7d;\n\x7d;\n"

def providerNode : DTNode :=
  .mk (str "clk@0") (str "/clk@0") [(str "phandle", str "<0x10>")] .nil

def consumerNode : DTNode :=
  .mk (str "consumer@1") (str "/consumer@1") [(str "clocks", str "<0x10 0>")] .nil

def c4tree : DTNode :=
  .mk (str "/") (str "/") [] (.cons providerNode (.cons consumerNode .nil))

/-- A source whose property values contain the sequences `*/` and `/*`.
Serializing the parse emits the root property line above the child node,
which brings the two sequences into block-comment order. -/
def c2text : List Char :=
  str "/ \x7b\nc \x7b\nk = x*/y;\n\x7d;\nm = p/*q;\n\x7d;"

/-- The malformed one-line source of claim C1. -/
def c1badText : List Char := str "/ \x7b a \x7b \x7d"

/-- A well-bracketed multi-line variant of the same structure. -/
def c1goodText : List Char := str "/ \x7b\na \x7b\n\x7d;\n\x7d;\n"

/-- A source storing a compound value: a comma-separated string list. -/
def c9text : List Char := str "/ \x7b\nk = \x22a\x22, \x22b\x22;\n\x7d;"

/-- A one-entry bindings index: compatible `vendor,x` maps to the property
set holding exactly `clocks`. -/
def c5idx : BindingsIndex := ⟨[(str "vendor,x", [str "clocks"])]⟩

def c5node : DTNode :=
  .mk (str "n") (str "/n") [(str "compatible", str "vendor,x")] .nil

/-- The schema document of claim C6, also the repository's own
`test_bindings.py` fixture up to renaming: compatible declared by a
`const` entry, and `clocks` declared with a YAML `items` LIST whose
element `$ref` names a phandle-array type. -/
def c6doc : Yaml :=
  .ymap (.cons (str "compatible")
      (.ymap (.cons (str "const") (.ystr (str "vendor,x")) .nil))
    (.cons (str "properties")
      (.ymap (.cons (str "clocks")
        (.ymap (.cons (str "items")
          (.yarr (.cons
            (.ymap (.cons (str "$ref")
              (.ystr (str "/schemas/types.yaml#/definitions/phandle-array")) .nil))
            .nil)) .nil)) .nil)) .nil))

/-- The same document with `items` as a YAML mapping instead of a list. -/
def c6docDict : Yaml :=
  .ymap (.cons (str "compatible")
      (.ymap (.cons (str "const") (.ystr (str "vendor,x")) .nil))
    (.cons (str "properties")
      (.ymap (.cons (str "clocks")
        (.ymap (.cons (str "items")
          (.ymap (.cons (str "$ref")
            (.ystr (str "/schemas/types.yaml#/definitions/phandle-array")) .nil)) .nil)) .nil)) .nil))

/-! ## String lemmas -/

theorem takeWhileAppendSat {α : Type} {p : α → Bool} :
    ∀ (xs : List α) (y : α) (ys : List α), (∀ c ∈ xs, p c = true) → p y = false →
      (xs ++ y :: ys).takeWhile p = xs := by
  intro xs y ys hall hy
  induction xs with
  | nil => simp [List.takeWhile, hy]
  | cons a as ih =>
    have ha : p a = true := hall a (by simp)
    simp only [List.cons_append, List.takeWhile_cons, ha, if_true]
    rw [ih (fun c hc => hall c (by simp [hc]))]

theorem dropWhileAppendSat {α : Type} {p : α → Bool} :
    ∀ (xs : List α) (y : α) (ys : List α), (∀ c ∈ xs, p c = true) → p y = false →
      (xs ++ y :: ys).dropWhile p = y :: ys := by
  intro xs y ys hall hy
  induction xs with
  | nil => simp [List.dropWhile, hy]
  | cons a as ih =>
    have ha : p a = true := hall a (by simp)
    simp only [List.cons_append, List.dropWhile_cons, ha, if_true]
    exact ih (fun c hc => hall c (by simp [hc]))

theorem dropWhileAllSat {α : Type} {p : α → Bool} :
    ∀ (xs : List α), (∀ c ∈ xs, p c = true) → xs.dropWhile p = [] := by
  intro xs hall
  induction xs with
  | nil => simp
  | cons a as ih =>
    have ha : p a = true := hall a (by simp)
    simp only [List.dropWhile_cons, ha, if_true]
    exact ih (fun c hc => hall c (by simp [hc]))

theorem dropWhileHeadFail {α : Type} {p : α → Bool} :
    ∀ (s : List α), (∀ h, s.head? = some h → p h = false) → s.dropWhile p = s := by
  intro s hh
  cases s with
  | nil => simp
  | cons a as =>
    have := hh a (by simp)
    simp [List.dropWhile_cons, this]

theorem takeWhileAllSat {α : Type} {p : α → Bool} :
    ∀ (xs : List α), (∀ c ∈ xs, p c = true) → xs.takeWhile p = xs := by
  intro xs hall
  induction xs with
  | nil => simp
  | cons a as ih =>
    have ha : p a = true := hall a (by simp)
    simp only [List.takeWhile_cons, ha, if_true]
    rw [ih (fun c hc => hall c (by simp [hc]))]

/-- Head of a `dropWhile` result never satisfies the predicate. -/
theorem dropWhileHeadNot {α : Type} {p : α → Bool} :
    ∀ (s : List α) (h : α), (s.dropWhile p).head? = some h → p h = false := by
  intro s
  induction s with
  | nil => intro h hh; simp at hh
  | cons a as ih =>
    intro h hh
    by_cases hp : p a
    · simp only [List.dropWhile_cons, hp, if_true] at hh
      exact ih h hh
    · rw [List.dropWhile_cons, if_neg hp] at hh
      simp only [List.head?_cons, Option.some.injEq] at hh
      subst hh
      simpa using hp

/-- Every list splits as a satisfied prefix followed by its `dropWhile`. -/
theorem dropWhileExistsPre {α : Type} {p : α → Bool} :
    ∀ l : List α, ∃ t, (∀ c ∈ t, p c = true) ∧ l = t ++ l.dropWhile p := by
  intro l
  induction l with
  | nil => exact ⟨[], by simp, by simp⟩
  | cons a as ih =>
    by_cases hp : p a
    · obtain ⟨t, ht1, ht2⟩ := ih
      refine ⟨a :: t, ?_, ?_⟩
      · intro c hc
        rcases List.mem_cons.1 hc with hc | hc
        · subst hc; exact hp
        · exact ht1 c hc
      · simp only [List.dropWhile_cons, hp, if_true]
        simpa using ht2
    · refine ⟨[], by simp, ?_⟩
      simp [List.dropWhile_cons, hp]

/-- Head of `(l.reverse.dropWhile p).reverse` is the head of `l` when present. -/
theorem revDropRevHead {α : Type} {p : α → Bool} (A : List α) (h : α) :
    ((A.reverse.dropWhile p).reverse).head? = some h → A.head? = some h := by
  intro hh
  obtain ⟨t, -, ht⟩ := dropWhileExistsPre (p := p) A.reverse
  have hA : A = (A.reverse.dropWhile p).reverse ++ t.reverse := by
    have h2 := congrArg List.reverse ht
    simpa using h2
  cases hd : (A.reverse.dropWhile p).reverse with
  | nil => rw [hd] at hh; simp at hh
  | cons x xs =>
    rw [hd] at hh
    simp only [List.head?_cons, Option.some.injEq] at hh
    subst hh
    rw [hA, hd]
    simp

theorem pyStripHead (s : List Char) (h : Char) :
    (pyStrip s).head? = some h → isPySpace h = false := by
  intro hh
  have h2 : (s.dropWhile isPySpace).head? = some h :=
    revDropRevHead (p := isPySpace) _ h hh
  exact dropWhileHeadNot s h h2

theorem pyStripLast (s : List Char) (h : Char) :
    (pyStrip s).getLast? = some h → isPySpace h = false := by
  intro hh
  unfold pyStrip at hh
  rw [List.getLast?_reverse] at hh
  exact dropWhileHeadNot _ h hh

/-- `str.strip()` removes surrounding whitespace and leaves a clean core. -/
theorem pyStripClean (pre s : List Char)
    (hpre : ∀ c ∈ pre, isPySpace c = true)
    (hh : ∀ h, s.head? = some h → isPySpace h = false)
    (he : ∀ e, s.getLast? = some e → isPySpace e = false) :
    pyStrip (pre ++ s) = s := by
  unfold pyStrip
  cases s with
  | nil =>
    rw [List.append_nil, dropWhileAllSat pre hpre]
    simp
  | cons x xs =>
    have hx : isPySpace x = false := hh x (by simp)
    rw [dropWhileAppendSat pre x xs hpre hx]
    have hrev : ((x :: xs).reverse).dropWhile isPySpace = (x :: xs).reverse := by
      apply dropWhileHeadFail
      intro e hee
      rw [List.head?_reverse] at hee
      exact he e hee
    rw [hrev]
    simp

theorem pyStripIdem (s : List Char) : pyStrip (pyStrip s) = pyStrip s := by
  have := pyStripClean [] (pyStrip s) (by simp) (pyStripHead s) (pyStripLast s)
  simpa using this

theorem lastIsIff (s : List Char) (c : Char) :
    lastIs s c = true ↔ s.getLast? = some c := by
  rw [← List.head?_reverse]
  unfold lastIs
  cases s.reverse with
  | nil => simp
  | cons d ds => simp [eq_comm]

/-- The head of `stripQuotes v` is never a quote. -/
theorem stripQuotesHead (v : List Char) (h : Char) :
    (stripQuotes v).head? = some h → h ≠ '"' := by
  intro hh
  have h2 : (v.dropWhile (· = '"')).head? = some h :=
    revDropRevHead (p := (· = '"')) _ h hh
  have := dropWhileHeadNot v h h2
  simpa using this


/-! ## Character class facts -/

theorem nameCharNotSpace (c : Char) (h : isNameChar c = true) : isPySpace c = false := by
  cases he : isPySpace c
  · rfl
  · exfalso
    have hmem : c ∈ pySpaceChars := List.elem_iff.1 he
    simp only [pySpaceChars] at hmem
    fin_cases hmem <;> exact absurd h (by decide)

theorem nameCharNotBreak (c : Char) (h : isNameChar c = true) : isLineBreak c = false := by
  cases he : isLineBreak c
  · rfl
  · exfalso
    have hmem : c ∈ lineBreakChars := List.elem_iff.1 he
    simp only [lineBreakChars] at hmem
    fin_cases hmem <;> exact absurd h (by decide)

theorem nameCharNotSlash (c : Char) (h : isNameChar c = true) : c ≠ '/' := by
  intro he; subst he; exact absurd h (by decide)

theorem nameCharNotColon (c : Char) (h : isNameChar c = true) : c ≠ ':' := by
  intro he; subst he; exact absurd h (by decide)

theorem nameCharNotLBrace (c : Char) (h : isNameChar c = true) : c ≠ '\x7b' := by
  intro he; subst he; exact absurd h (by decide)

theorem keyCharNotSpace (c : Char) (h : isKeyChar c = true) : isPySpace c = false := by
  cases he : isPySpace c
  · rfl
  · exfalso
    have hmem : c ∈ pySpaceChars := List.elem_iff.1 he
    simp only [pySpaceChars] at hmem
    fin_cases hmem <;> exact absurd h (by decide)

theorem keyCharNotBreak (c : Char) (h : isKeyChar c = true) : isLineBreak c = false := by
  cases he : isLineBreak c
  · rfl
  · exfalso
    have hmem : c ∈ lineBreakChars := List.elem_iff.1 he
    simp only [lineBreakChars] at hmem
    fin_cases hmem <;> exact absurd h (by decide)

theorem keyCharNotRBrace (c : Char) (h : isKeyChar c = true) : c ≠ '\x7d' := by
  intro he; subst he; exact absurd h (by decide)

theorem keyCharNotEq (c : Char) (h : isKeyChar c = true) : c ≠ '=' := by
  intro he; subst he; exact absurd h (by decide)

/-! ## Invariants of parser output -/

/-- The string contains no line-break character (statements produced by
`_tokenize` never do: lines are split at break characters and re-joined
with single spaces). -/
def NoBreak (v : List Char) : Prop := ∀ c ∈ v, isLineBreak c = false

/-- Invariant on stored property values: break-free, `strip()`-stable, and
not quoted at both ends (the parser has already removed such quotes). -/
def ValOK (v : List Char) : Prop :=
  NoBreak v ∧ pyStrip v = v ∧ ¬(v.head? = some '"' ∧ lastIs v '"' = true)

def KeyOK (k : List Char) : Prop := k ≠ [] ∧ ∀ c ∈ k, isKeyChar c = true

def NameOK (nm : List Char) : Prop := nm ≠ [] ∧ ∀ c ∈ nm, isNameChar c = true

def PropsOK (ps : List (List Char × List Char)) : Prop :=
  (∀ kv ∈ ps, KeyOK kv.1 ∧ ValOK kv.2) ∧ (ps.map Prod.fst).Nodup

/-- Invariant of every non-root node produced by the parser, relative to
its parent's path: regex-shaped name, path derived by `mkPath`, valid
properties, and the same invariant for all children. -/
inductive InvN : List Char → DTNode → Prop where
  | mk : ∀ (pp nm : List Char) pr cs,
      NameOK nm → PropsOK pr →
      (∀ c ∈ DTNodeList.toList cs, InvN (mkPath pp nm) c) →
      InvN pp (.mk nm (mkPath pp nm) pr cs)

/-- Invariant of a parsed tree: synthetic root plus `InvN` children. -/
def InvRoot (t : DTNode) : Prop :=
  ∃ pr cs, t = .mk (str "/") (str "/") pr cs ∧ PropsOK pr ∧
    ∀ c ∈ DTNodeList.toList cs, InvN (str "/") c

/-! ## Behaviour of the regex matchers on serializer-shaped lines -/

theorem indentAllSpace (lvl : Nat) : ∀ c ∈ indentOf lvl, isPySpace c = true := by
  intro c hc
  unfold indentOf at hc
  have := List.eq_of_mem_replicate hc
  subst this
  rfl

theorem nameHeadNotSpace (nm : List Char) (h : NameOK nm) :
    ∀ x, nm.head? = some x → isPySpace x = false := by
  intro x hx
  obtain ⟨hne, hall⟩ := h
  cases nm with
  | nil => simp at hx
  | cons a as =>
    simp only [List.head?_cons, Option.some.injEq] at hx
    subst hx
    exact nameCharNotSpace _ (hall _ (by simp))

theorem keyHeadNotSpace (k : List Char) (h : KeyOK k) :
    ∀ x, k.head? = some x → isPySpace x = false := by
  intro x hx
  obtain ⟨hne, hall⟩ := h
  cases k with
  | nil => simp at hx
  | cons a as =>
    simp only [List.head?_cons, Option.some.injEq] at hx
    subst hx
    exact keyCharNotSpace _ (hall _ (by simp))

theorem nodeStartOnName (nm : List Char) (h : NameOK nm) :
    nodeStartMatch (nm ++ str " \x7b") = some (some nm) := by
  obtain ⟨hne, hall⟩ := h
  have hd1 : (nm ++ ' ' :: ['\x7b']).dropWhile isPySpace = nm ++ ' ' :: ['\x7b'] := by
    apply dropWhileHeadFail
    intro x hx
    cases nm with
    | nil => exact absurd rfl hne
    | cons a as =>
      simp only [List.cons_append, List.head?_cons, Option.some.injEq] at hx
      subst hx
      exact nameCharNotSpace _ (hall _ (by simp))
  have htk := takeWhileAppendSat nm ' ' ['\x7b'] hall (by decide)
  have hdk := dropWhileAppendSat nm ' ' ['\x7b'] hall (by decide)
  show nodeStartMatch (nm ++ ' ' :: ['\x7b']) = some (some nm)
  simp only [nodeStartMatch, hd1, htk, hdk]
  have : (' ' :: ['\x7b']).dropWhile isPySpace = ['\x7b'] := by decide
  rw [this]
  dsimp only
  rw [if_pos ⟨rfl, rfl⟩, if_neg hne]

theorem nodeWithNameNoneOnName (nm : List Char) (h : NameOK nm) :
    nodeWithNameMatch (nm ++ str " \x7b") = none := by
  obtain ⟨hne, hall⟩ := h
  have hd1 : (nm ++ ' ' :: ['\x7b']).dropWhile isPySpace = nm ++ ' ' :: ['\x7b'] := by
    apply dropWhileHeadFail
    intro x hx
    cases nm with
    | nil => exact absurd rfl hne
    | cons a as =>
      simp only [List.cons_append, List.head?_cons, Option.some.injEq] at hx
      subst hx
      exact nameCharNotSpace _ (hall _ (by simp))
  have htk := takeWhileAppendSat nm ' ' ['\x7b'] hall (by decide)
  have hdk := dropWhileAppendSat nm ' ' ['\x7b'] hall (by decide)
  show nodeWithNameMatch (nm ++ ' ' :: ['\x7b']) = none
  simp only [nodeWithNameMatch, hd1, htk, hdk]
  rw [if_neg hne]
  have : (' ' :: ['\x7b']).dropWhile isPySpace = ['\x7b'] := by decide
  rw [this]
  dsimp only
  rw [if_neg (by decide)]

theorem splitLastSemiAppend (v : List Char) :
    splitLastSemi (v ++ [';']) = some (v, []) := by
  unfold splitLastSemi
  rw [List.reverse_append]
  have h1 : ((';' :: v.reverse).takeWhile (· ≠ ';')) = [] := by
    simp [List.takeWhile_cons]
  have h2 : ((';' :: v.reverse).dropWhile (· ≠ ';')) = ';' :: v.reverse := by
    simp [List.dropWhile_cons]
  simp only [List.reverse_cons, List.reverse_nil, List.nil_append, h1, h2]
  simp

theorem noBreakContainsNL (v : List Char) (h : NoBreak v) : v.contains '\n' = false := by
  cases hc : v.contains '\n'
  · rfl
  · exfalso
    have hmem : '\n' ∈ v := by
      have := List.elem_iff.1 hc
      simpa using this
    have := h '\n' hmem
    exact absurd this (by decide)

theorem propertyMatchOnLine (k v : List Char) (hk : KeyOK k)
    (hnb : NoBreak v) (hst : pyStrip v = v) :
    propertyMatch (k ++ str " = " ++ v ++ [';']) = some (k, v) := by
  obtain ⟨hkne, hkall⟩ := hk
  have hshape : k ++ str " = " ++ v ++ [';'] = k ++ ' ' :: ('=' :: ' ' :: (v ++ [';'])) := by
    simp [str]
  rw [hshape]
  have hd1 : (k ++ ' ' :: ('=' :: ' ' :: (v ++ [';']))).dropWhile isPySpace =
      k ++ ' ' :: ('=' :: ' ' :: (v ++ [';'])) := by
    apply dropWhileHeadFail
    intro x hx
    cases k with
    | nil => exact absurd rfl hkne
    | cons a as =>
      simp only [List.cons_append, List.head?_cons, Option.some.injEq] at hx
      subst hx
      exact keyCharNotSpace _ (hkall _ (by simp))
  have htk := takeWhileAppendSat k ' ' ('=' :: ' ' :: (v ++ [';'])) hkall (by decide)
  have hdk := dropWhileAppendSat k ' ' ('=' :: ' ' :: (v ++ [';'])) hkall (by decide)
  have hd2 : (' ' :: ('=' :: ' ' :: (v ++ [';']))).dropWhile isPySpace =
      '=' :: ' ' :: (v ++ [';']) := by
    rw [List.dropWhile_cons]
    rw [if_pos (by decide)]
    rw [List.dropWhile_cons]
    rw [if_neg (by decide)]
  have hd3 : (' ' :: (v ++ [';'])).dropWhile isPySpace = v ++ [';'] := by
    rw [List.dropWhile_cons]
    rw [if_pos (by decide)]
    apply dropWhileHeadFail
    intro x hx
    cases hv : v with
    | nil =>
      subst hv
      simp only [List.nil_append, List.head?_cons, Option.some.injEq] at hx
      subst hx
      rfl
    | cons b bs =>
      subst hv
      simp only [List.cons_append, List.head?_cons, Option.some.injEq] at hx
      subst hx
      apply pyStripHead (b :: bs)
      rw [hst]
      simp
  simp only [propertyMatch, hd1, htk, hdk]
  rw [if_neg hkne, hd2]
  dsimp only
  rw [if_pos rfl, hd3, splitLastSemiAppend v]
  dsimp only
  rw [if_pos ⟨rfl, by intro hm; exact absurd (hnb '\n' (List.elem_iff.1 hm)) (by decide)⟩]

/-! ## Effect of one parser step on each serializer-shaped line -/

theorem lastIsConcat (xs : List Char) (c d : Char) :
    lastIs (xs ++ [c]) d = decide (c = d) := by
  unfold lastIs
  rw [List.reverse_append]
  rfl

theorem pyStripOpenLine (lvl : Nat) (nm : List Char) (h : NameOK nm) :
    pyStrip (serOpenLine lvl nm) = nm ++ str " \x7b" := by
  unfold serOpenLine
  rw [List.append_assoc]
  apply pyStripClean _ _ (indentAllSpace lvl)
  · intro x hx
    obtain ⟨hne, hall⟩ := h
    cases nm with
    | nil => exact absurd rfl hne
    | cons a as =>
      simp only [List.cons_append, List.head?_cons, Option.some.injEq] at hx
      subst hx
      exact nameCharNotSpace _ (hall _ (by simp))
  · intro e he
    have hsh : nm ++ str " \x7b" = (nm ++ [' ']) ++ ['\x7b'] := by simp [str]
    rw [hsh, List.getLast?_concat] at he
    simp only [Option.some.injEq] at he
    subst he
    rfl

theorem pyStripPropLine (lvl : Nat) (k v : List Char) (hk : KeyOK k) :
    pyStrip (serPropLine lvl k v) = k ++ str " = " ++ v ++ [';'] := by
  unfold serPropLine
  rw [show indentOf lvl ++ k ++ str " = " ++ v ++ [';'] =
      indentOf lvl ++ (k ++ str " = " ++ v ++ [';']) from by simp [List.append_assoc]]
  apply pyStripClean _ _ (indentAllSpace lvl)
  · intro x hx
    obtain ⟨hne, hall⟩ := hk
    cases k with
    | nil => exact absurd rfl hne
    | cons a as =>
      simp only [List.append_assoc, List.cons_append, List.head?_cons,
        Option.some.injEq] at hx
      subst hx
      exact keyCharNotSpace _ (hall _ (by simp))
  · intro e he
    rw [show k ++ str " = " ++ v ++ [';'] = (k ++ str " = " ++ v) ++ [';'] from by
        simp [List.append_assoc]] at he
    rw [List.getLast?_concat] at he
    simp only [Option.some.injEq] at he
    subst he
    rfl

theorem pyStripCloseLine (lvl : Nat) :
    pyStrip (serCloseLine lvl) = str "\x7d;" := by
  unfold serCloseLine
  apply pyStripClean _ _ (indentAllSpace lvl)
  · intro x hx
    simp only [str] at hx
    simp at hx
    subst hx
    rfl
  · intro e he
    simp only [str] at he
    simp [List.getLast?] at he
    subst he
    rfl

theorem stepLineOpen (st : PFrame × List PFrame) (lvl : Nat) (nm : List Char)
    (h : NameOK nm) :
    stepLine st (serOpenLine lvl nm) =
      (⟨nm, mkPath st.1.path nm, [], []⟩, st.1 :: st.2) := by
  have hstrip := pyStripOpenLine lvl nm h
  obtain ⟨hne, hall⟩ := h
  simp only [stepLine, hstrip]
  rw [if_neg (by simp [str])]
  have hlast : lastIs (nm ++ str " \x7b") '\x7b' = true := by
    rw [show nm ++ str " \x7b" = (nm ++ [' ']) ++ ['\x7b'] from by simp [str]]
    rw [lastIsConcat]
    rfl
  rw [hlast]
  rw [if_pos rfl]
  have hhead : (nm ++ str " \x7b").head? ≠ some '/' := by
    cases nm with
    | nil => exact absurd rfl hne
    | cons a as =>
      intro heq
      simp only [List.cons_append, List.head?_cons, Option.some.injEq] at heq
      exact absurd heq (nameCharNotSlash a (hall a (by simp)))
  rw [if_neg hhead]
  have hname : nodeNameOf (nm ++ str " \x7b") = nm := by
    unfold nodeNameOf
    rw [nodeWithNameNoneOnName nm ⟨hne, hall⟩, nodeStartOnName nm ⟨hne, hall⟩]
    rfl
  rw [hname]

theorem stepLineProp (st : PFrame × List PFrame) (lvl : Nat) (k v : List Char)
    (hk : KeyOK k) (hv : ValOK v) :
    stepLine st (serPropLine lvl k v) =
      ({ st.1 with props := assocSet st.1.props k v }, st.2) := by
  have hstrip := pyStripPropLine lvl k v hk
  obtain ⟨hnb, hps, hq⟩ := hv
  simp only [stepLine, hstrip]
  rw [if_neg (by simp [str])]
  have hlast : lastIs (k ++ str " = " ++ v ++ [';']) '\x7b' = false := by
    rw [show k ++ str " = " ++ v ++ [';'] = (k ++ str " = " ++ v) ++ [';'] from by
        simp [List.append_assoc]]
    rw [lastIsConcat]
    rfl
  rw [hlast]
  rw [if_neg (by simp)]
  have hnesemi : k ++ str " = " ++ v ++ [';'] ≠ str "\x7d;" := by
    obtain ⟨hkne, hkall⟩ := hk
    cases k with
    | nil => exact absurd rfl hkne
    | cons a as =>
      intro heq
      have : a = '\x7d' := by
        have := congrArg List.head? heq
        simpa [str] using this
      subst this
      exact absurd (hkall '\x7d' (by simp)) (by decide)
  rw [if_neg hnesemi]
  rw [propertyMatchOnLine k v hk hnb hps]
  dsimp only
  rw [hps]
  rw [if_neg hq]

theorem stepLineClosePop (t p : PFrame) (r : List PFrame) (lvl : Nat) :
    stepLine (t, p :: r) (serCloseLine lvl) =
      ({ p with kids := p.kids ++ [frameClose t] }, r) := by
  have hstrip := pyStripCloseLine lvl
  simp only [stepLine, hstrip]
  rw [if_neg (by simp [str])]
  rw [show lastIs (str "\x7d;") '\x7b' = false from rfl]
  rw [if_neg (by simp)]
  rw [if_pos trivial]

theorem stepLineCloseRoot (t : PFrame) (lvl : Nat) :
    stepLine (t, []) (serCloseLine lvl) = (t, []) := by
  have hstrip := pyStripCloseLine lvl
  simp only [stepLine, hstrip]
  rw [if_neg (by simp [str])]
  rw [show lastIs (str "\x7d;") '\x7b' = false from rfl]
  rw [if_neg (by simp)]
  rw [if_pos trivial]

theorem stepLineRootOpen (st : PFrame × List PFrame) :
    stepLine st (serOpenLine 0 (str "/")) = st := rfl

theorem stepLineStrip (st : PFrame × List PFrame) (l : List Char) :
    stepLine st (pyStrip l) = stepLine st l := by
  simp only [stepLine, pyStripIdem]

theorem foldlStepMapStrip (ls : List (List Char)) (st : PFrame × List PFrame) :
    (ls.map pyStrip).foldl stepLine st = ls.foldl stepLine st := by
  induction ls generalizing st with
  | nil => rfl
  | cons l rest ih =>
    simp only [List.map_cons, List.foldl_cons, stepLineStrip]
    exact ih _

theorem assocSetFresh {α : Type} (m : List (List Char × α)) (k : List Char) (v : α)
    (h : k ∉ m.map Prod.fst) : assocSet m k v = m ++ [(k, v)] := by
  induction m with
  | nil => rfl
  | cons kv rest ih =>
    obtain ⟨k2, v2⟩ := kv
    simp only [List.map_cons, List.mem_cons, not_or] at h
    obtain ⟨hk2, hrest⟩ := h
    simp only [assocSet]
    rw [if_neg (fun he => hk2 he.symm)]
    rw [ih hrest]
    simp

theorem foldPropLines (lvl : Nat) :
    ∀ (ps : List (List Char × List Char)) (nm pth : List Char)
      (acc : List (List Char × List Char)) (kids : List DTNode) (rest : List PFrame),
      (∀ kv ∈ ps, KeyOK kv.1 ∧ ValOK kv.2) →
      (∀ k ∈ ps.map Prod.fst, k ∉ acc.map Prod.fst) →
      (ps.map Prod.fst).Nodup →
      (ps.map (fun kv => serPropLine lvl kv.1 kv.2)).foldl stepLine
          (⟨nm, pth, acc, kids⟩, rest) =
        (⟨nm, pth, acc ++ ps, kids⟩, rest) := by
  intro ps
  induction ps with
  | nil => intro nm pth acc kids rest _ _ _; simp
  | cons kv ps2 ih =>
    intro nm pth acc kids rest hok hfresh hnd
    obtain ⟨k, v⟩ := kv
    simp only [List.map_cons, List.foldl_cons]
    rw [stepLineProp _ lvl k v (hok (k, v) (by simp)).1 (hok (k, v) (by simp)).2]
    simp only []
    rw [assocSetFresh acc k v (hfresh k (by simp))]
    have hok2 : ∀ kv ∈ ps2, KeyOK kv.1 ∧ ValOK kv.2 := fun kv hkv => hok kv (by simp [hkv])
    have hnd2 : (ps2.map Prod.fst).Nodup := by
      simp only [List.map_cons, List.nodup_cons] at hnd
      exact hnd.2
    have hfresh2 : ∀ k2 ∈ ps2.map Prod.fst, k2 ∉ (acc ++ [(k, v)]).map Prod.fst := by
      intro k2 hk2
      simp only [List.map_append, List.mem_append, List.map_cons, List.map_nil,
        List.mem_singleton, not_or]
      constructor
      · exact hfresh k2 (by simp [hk2])
      · simp only [List.map_cons, List.nodup_cons] at hnd
        intro heq
        subst heq
        exact hnd.1 hk2
    have := ih nm pth (acc ++ [(k, v)]) kids rest hok2 hfresh2 hnd2
    rw [this]
    simp

theorem ofListToList : ∀ cs : DTNodeList, DTNodeList.ofList cs.toList = cs
  | .nil => rfl
  | .cons c cs2 => by
      simp only [DTNodeList.toList, DTNodeList.ofList]
      rw [ofListToList cs2]

mutual
theorem foldSerNode : ∀ (n : DTNode) (lvl : Nat) (top : PFrame) (rest : List PFrame),
    InvN top.path n →
    (serNode n lvl).foldl stepLine (top, rest) =
      ({ top with kids := top.kids ++ [n] }, rest)
  | .mk nm p pr cs, lvl, top, rest, hinv => by
      cases hinv with
      | mk _ _ _ _ hname hprops hkids =>
        simp only [serNode, List.foldl_cons]
        rw [stepLineOpen (top, rest) lvl nm hname]
        dsimp only
        rw [List.foldl_append, List.foldl_append]
        rw [foldPropLines (lvl + 1) pr nm (mkPath top.path nm) [] [] (top :: rest)
          hprops.1 (by simp) hprops.2]
        rw [show ([] : List (List Char × List Char)) ++ pr = pr from by simp]
        rw [foldSerKids cs (lvl + 1) ⟨nm, mkPath top.path nm, pr, []⟩ (top :: rest)
          (by intro c hc; exact hkids c hc)]
        simp only [List.foldl_cons, List.foldl_nil, List.nil_append]
        rw [stepLineClosePop ⟨nm, mkPath top.path nm, pr, DTNodeList.toList cs⟩ top rest lvl]
        simp only [frameClose, ofListToList]
theorem foldSerKids : ∀ (cs : DTNodeList) (lvl : Nat) (top : PFrame) (rest : List PFrame),
    (∀ c ∈ cs.toList, InvN top.path c) →
    (serKids cs lvl).foldl stepLine (top, rest) =
      ({ top with kids := top.kids ++ cs.toList }, rest)
  | .nil, lvl, top, rest, _ => by
      simp only [serKids, List.foldl_nil, DTNodeList.toList, List.append_nil]
  | .cons c cs2, lvl, top, rest, hinv => by
      simp only [serKids, List.foldl_append]
      rw [foldSerNode c lvl top rest (hinv c (by simp [DTNodeList.toList]))]
      rw [foldSerKids cs2 lvl ({ top with kids := top.kids ++ [c] }) rest
        (by intro c2 hc2; exact hinv c2 (by simp [DTNodeList.toList, hc2]))]
      simp [DTNodeList.toList, List.append_assoc]
end

/-! ## Tokenizing serializer output -/

theorem splitLinesFNil : ∀ f, splitLinesF f [] = []
  | 0 => rfl
  | _ + 1 => rfl

theorem splitLinesFIrrel : ∀ f1 f2 cs, cs.length ≤ f1 → cs.length ≤ f2 →
    splitLinesF f1 cs = splitLinesF f2 cs := by
  intro f1
  induction f1 with
  | zero =>
    intro f2 cs h1 h2
    have : cs = [] := by
      cases cs
      · rfl
      · simp at h1
    subst this
    rw [splitLinesFNil, splitLinesFNil]
  | succ g1 ih =>
    intro f2 cs h1 h2
    cases cs with
    | nil => rw [splitLinesFNil, splitLinesFNil]
    | cons c0 rest0 =>
      cases f2 with
      | zero => simp at h2
      | succ g2 =>
        simp only [splitLinesF]
        have hlen : ((c0 :: rest0).dropWhile (fun c => ¬ isLineBreak c)).length ≤
            (c0 :: rest0).length := dropWhileLengthLe ..
        cases hd : (c0 :: rest0).dropWhile (fun c => ¬ isLineBreak c) with
        | nil => rfl
        | cons b rest1 =>
          dsimp only
          rw [hd] at hlen
          simp only [List.length_cons] at hlen h1 h2
          by_cases hc : b = '\r' ∧ rest1.head? = some '\n'
          · rw [if_pos hc, if_pos hc]
            have htl : rest1.tail.length ≤ rest1.length := by cases rest1 <;> simp
            rw [ih g2 rest1.tail (by omega) (by omega)]
          · rw [if_neg hc, if_neg hc]
            rw [ih g2 rest1 (by omega) (by omega)]

theorem splitLinesAppend (a X : List Char) (ha : NoBreak a) :
    splitLines (a ++ '\n' :: X) = a :: splitLines X := by
  have hall : ∀ c ∈ a, (fun c => ¬ isLineBreak c : Char → Bool) c = true := by
    intro c hc
    simp [ha c hc]
  have htk := takeWhileAppendSat a '\n' X hall (by decide)
  have hdk := dropWhileAppendSat a '\n' X hall (by decide)
  unfold splitLines
  have hlen : (a ++ '\n' :: X).length = (a.length + X.length) + 1 := by
    simp
    omega
  rw [hlen]
  cases a with
  | nil =>
    simp only [List.nil_append] at htk hdk ⊢
    simp only [List.length_nil, Nat.zero_add]
    simp only [splitLinesF]
    rw [htk, hdk]
    dsimp only
    rw [if_neg (fun h => absurd h.1 (by decide))]
  | cons a0 arest =>
    simp only [List.cons_append] at htk hdk ⊢
    simp only [splitLinesF]
    rw [htk, hdk]
    dsimp only
    rw [if_neg (fun h => absurd h.1 (by decide))]
    rw [splitLinesFIrrel ((a0 :: arest).length + X.length) X.length X (by simp) le_rfl]

theorem splitLinesJoinNL : ∀ ls : List (List Char), ls ≠ [] →
    (∀ l ∈ ls, NoBreak l) → splitLines (joinNL ls ++ ['\n']) = ls := by
  intro ls
  induction ls with
  | nil => intro h; exact absurd rfl h
  | cons a rest ih =>
    intro _ hnb
    cases rest with
    | nil =>
      simp only [joinNL]
      rw [show a ++ ['\n'] = a ++ '\n' :: [] from rfl]
      rw [splitLinesAppend a [] (hnb a (by simp))]
      rfl
    | cons b rest2 =>
      simp only [joinNL]
      rw [show (a ++ '\n' :: joinNL (b :: rest2)) ++ ['\n'] =
          a ++ '\n' :: (joinNL (b :: rest2) ++ ['\n']) from by simp]
      rw [splitLinesAppend a _ (hnb a (by simp))]
      rw [ih (by simp) (fun l hl => hnb l (by simp [hl]))]

theorem bufferLinesFlush : ∀ ls : List (List Char),
    (∀ l ∈ ls, pyStrip l ≠ [] ∧ flushCond (pyStrip l) = true) →
    bufferLines ls = ls.map pyStrip := by
  intro ls h
  show bufferLines.go [] ls = ls.map pyStrip
  induction ls with
  | nil => rfl
  | cons l rest ih =>
    obtain ⟨hne, hfl⟩ := h l (by simp)
    simp only [bufferLines.go]
    rw [if_neg hne]
    rw [show ([] : List (List Char)) ++ [pyStrip l] = [pyStrip l] from by simp]
    rw [show joinSp [pyStrip l] = pyStrip l from rfl]
    rw [hfl]
    simp only [if_true]
    rw [ih (fun l2 hl2 => h l2 (by simp [hl2]))]
    rfl

/-! ## The serializer emits only well-formed, flushable lines -/

def LineGood (l : List Char) : Prop :=
  NoBreak l ∧ pyStrip l ≠ [] ∧ flushCond (pyStrip l) = true

theorem openLineGood (lvl : Nat) (nm : List Char) (h : NameOK nm) :
    LineGood (serOpenLine lvl nm) := by
  obtain ⟨hne, hall⟩ := h
  refine ⟨?_, ?_, ?_⟩
  · intro c hc
    unfold serOpenLine at hc
    simp only [List.mem_append, List.append_assoc] at hc
    rcases hc with hc | hc | hc
    · have := indentAllSpace lvl c hc
      rcases List.eq_of_mem_replicate hc with rfl
      rfl
    · exact nameCharNotBreak c (hall c hc)
    · rw [show str " \x7b" = [' ', '\x7b'] from rfl] at hc
      simp only [List.mem_cons, List.not_mem_nil, or_false] at hc
      rcases hc with rfl | rfl
      · rfl
      · rfl
  · rw [pyStripOpenLine lvl nm ⟨hne, hall⟩]
    simp [str]
  · rw [pyStripOpenLine lvl nm ⟨hne, hall⟩]
    unfold flushCond
    rw [show nm ++ str " \x7b" = (nm ++ [' ']) ++ ['\x7b'] from by simp [str]]
    rw [lastIsConcat]
    simp

theorem propLineGood (lvl : Nat) (k v : List Char) (hk : KeyOK k) (hv : ValOK v) :
    LineGood (serPropLine lvl k v) := by
  obtain ⟨hkne, hkall⟩ := hk
  obtain ⟨hnb, hps, hq⟩ := hv
  refine ⟨?_, ?_, ?_⟩
  · intro c hc
    unfold serPropLine at hc
    simp only [List.mem_append, List.append_assoc] at hc
    rcases hc with hc | hc | hc | hc | hc
    · rcases List.eq_of_mem_replicate hc with rfl
      rfl
    · exact keyCharNotBreak c (hkall c hc)
    · rw [show str " = " = [' ', '=', ' '] from rfl] at hc
      simp only [List.mem_cons, List.not_mem_nil, or_false] at hc
      rcases hc with rfl | rfl | rfl
      · rfl
      · rfl
      · rfl
    · exact hnb c hc
    · simp only [List.mem_cons, List.not_mem_nil, or_false] at hc
      subst hc
      rfl
  · rw [pyStripPropLine lvl k v ⟨hkne, hkall⟩]
    simp [str]
  · rw [pyStripPropLine lvl k v ⟨hkne, hkall⟩]
    unfold flushCond
    rw [show k ++ str " = " ++ v ++ [';'] = (k ++ str " = " ++ v) ++ [';'] from by
        simp [List.append_assoc]]
    rw [lastIsConcat]
    simp [lastIs, List.reverse_append]

theorem closeLineGood (lvl : Nat) : LineGood (serCloseLine lvl) := by
  refine ⟨?_, ?_, ?_⟩
  · intro c hc
    unfold serCloseLine at hc
    simp only [List.mem_append] at hc
    rcases hc with hc | hc
    · rcases List.eq_of_mem_replicate hc with rfl
      rfl
    · rw [show str "\x7d;" = ['\x7d', ';'] from rfl] at hc
      simp only [List.mem_cons, List.not_mem_nil, or_false] at hc
      rcases hc with rfl | rfl
      · rfl
      · rfl
  · rw [pyStripCloseLine lvl]
    simp [str]
  · rw [pyStripCloseLine lvl]
    rfl

mutual
theorem serNodeLinesGood : ∀ (n : DTNode) (pp : List Char) (lvl : Nat),
    InvN pp n → ∀ l ∈ serNode n lvl, LineGood l
  | .mk nm p pr cs, pp, lvl, hinv, l, hl => by
      cases hinv with
      | mk _ _ _ _ hname hprops hkids =>
        simp only [serNode, List.mem_cons, List.mem_append, List.mem_map,
          List.mem_singleton, List.not_mem_nil, or_false] at hl
        rcases hl with rfl | (⟨kv, hkv, rfl⟩ | hkid) | rfl
        · exact openLineGood lvl nm hname
        · exact propLineGood (lvl + 1) kv.1 kv.2 (hprops.1 kv hkv).1 (hprops.1 kv hkv).2
        · exact serKidsLinesGood cs (mkPath pp nm) (lvl + 1) hkids l hkid
        · exact closeLineGood lvl
theorem serKidsLinesGood : ∀ (cs : DTNodeList) (pp : List Char) (lvl : Nat),
    (∀ c ∈ cs.toList, InvN pp c) → ∀ l ∈ serKids cs lvl, LineGood l
  | .nil, pp, lvl, _, l, hl => by simp [serKids] at hl
  | .cons c cs2, pp, lvl, hinv, l, hl => by
      simp only [serKids, List.mem_append] at hl
      rcases hl with hl | hl
      · exact serNodeLinesGood c pp lvl (hinv c (by simp [DTNodeList.toList])) l hl
      · exact serKidsLinesGood cs2 pp lvl
          (fun c2 hc2 => hinv c2 (by simp [DTNodeList.toList, hc2])) l hl
end

/-! ## The parse-of-serialize round trip -/

theorem serNodeNeNil (n : DTNode) (lvl : Nat) : serNode n lvl ≠ [] := by
  cases n with
  | mk nm p pr cs => simp [serNode]

theorem serRootLinesGood (pr : List (List Char × List Char)) (cs : DTNodeList)
    (hpr : PropsOK pr) (hkids : ∀ c ∈ DTNodeList.toList cs, InvN (str "/") c) :
    ∀ l ∈ serNode (.mk (str "/") (str "/") pr cs) 0, LineGood l := by
  intro l hl
  simp only [serNode, List.mem_cons, List.mem_append, List.mem_map,
    List.mem_singleton, List.not_mem_nil, or_false] at hl
  rcases hl with rfl | (⟨kv, hkv, rfl⟩ | hkid) | rfl
  · refine ⟨?_, ?_, ?_⟩
    · show ∀ c ∈ serOpenLine 0 (str "/"), isLineBreak c = false
      decide
    · show pyStrip (serOpenLine 0 (str "/")) ≠ []
      decide
    · show flushCond (pyStrip (serOpenLine 0 (str "/"))) = true
      decide
  · exact propLineGood 1 kv.1 kv.2 (hpr.1 kv hkv).1 (hpr.1 kv hkv).2
  · exact serKidsLinesGood cs (str "/") 1 hkids l hkid
  · exact closeLineGood 0

/-- Parsing the serialization of a parser-normal tree (`InvRoot`)
reproduces the tree exactly, provided comment removal leaves the
serialized text alone. -/
theorem parseSerialize (t : DTNode) (hinv : InvRoot t)
    (hsc : stripComments (serializeTree t) = serializeTree t) :
    dtsParse (serializeTree t) = t := by
  obtain ⟨pr, cs, rfl, hpr, hkids⟩ := hinv
  have hgood := serRootLinesGood pr cs hpr hkids
  unfold dtsParse pyTokenize
  rw [hsc]
  unfold serializeTree
  rw [splitLinesJoinNL _ (serNodeNeNil _ 0) (fun l hl => (hgood l hl).1)]
  rw [bufferLinesFlush _ (fun l hl => ⟨(hgood l hl).2.1, (hgood l hl).2.2⟩)]
  unfold parseTokens
  rw [foldlStepMapStrip]
  simp only [serNode, List.foldl_cons]
  rw [show stepLine (rootFrame, ([] : List PFrame)) (serOpenLine 0 (str "/")) =
      (rootFrame, []) from stepLineRootOpen _]
  rw [List.foldl_append, List.foldl_append]
  rw [show rootFrame = (⟨str "/", str "/", [], []⟩ : PFrame) from rfl]
  rw [foldPropLines 1 pr (str "/") (str "/") [] [] [] hpr.1 (by simp) hpr.2]
  rw [show ([] : List (List Char × List Char)) ++ pr = pr from by simp]
  rw [foldSerKids cs 1 ⟨str "/", str "/", pr, []⟩ [] (fun c hc => hkids c hc)]
  simp only [List.foldl_cons, List.foldl_nil, List.nil_append]
  rw [stepLineCloseRoot]
  show collapseStack [] _ = _
  unfold collapseStack frameClose
  simp only [ofListToList]

/-! ## The bottom stack frame is never replaced -/

theorem bottomFrameCongr : ∀ (r : List PFrame) (p q : PFrame),
    p.name = q.name → p.path = q.path →
    (bottomFrame p r).name = (bottomFrame q r).name ∧
    (bottomFrame p r).path = (bottomFrame q r).path
  | [], _, _, h1, h2 => ⟨h1, h2⟩
  | _ :: _, _, _, _, _ => ⟨rfl, rfl⟩

theorem stepLineBottom (st : PFrame × List PFrame) (l : List Char) :
    (bottomFrame (stepLine st l).1 (stepLine st l).2).name =
      (bottomFrame st.1 st.2).name ∧
    (bottomFrame (stepLine st l).1 (stepLine st l).2).path =
      (bottomFrame st.1 st.2).path := by
  obtain ⟨t, r⟩ := st
  simp only [stepLine]
  by_cases h1 : pyStrip l = []
  · rw [if_pos h1]; exact ⟨rfl, rfl⟩
  rw [if_neg h1]
  cases h2 : lastIs (pyStrip l) '\x7b'
  · rw [if_neg (by simp)]
    by_cases h3 : pyStrip l = str "\x7d;"
    · rw [if_pos h3]
      cases r with
      | nil => exact ⟨rfl, rfl⟩
      | cons p r2 => exact bottomFrameCongr r2 _ p rfl rfl
    · rw [if_neg h3]
      cases hpm : propertyMatch (pyStrip l) with
      | none => exact ⟨rfl, rfl⟩
      | some kv => exact bottomFrameCongr r _ t rfl rfl
  · rw [if_pos rfl]
    by_cases h3 : (pyStrip l).head? = some '/'
    · rw [if_pos h3]; exact ⟨rfl, rfl⟩
    · rw [if_neg h3]; exact ⟨rfl, rfl⟩

theorem foldlBottom (ls : List (List Char)) (st : PFrame × List PFrame) :
    (bottomFrame (ls.foldl stepLine st).1 (ls.foldl stepLine st).2).name =
      (bottomFrame st.1 st.2).name ∧
    (bottomFrame (ls.foldl stepLine st).1 (ls.foldl stepLine st).2).path =
      (bottomFrame st.1 st.2).path := by
  induction ls generalizing st with
  | nil => exact ⟨rfl, rfl⟩
  | cons l rest ih =>
    simp only [List.foldl_cons]
    obtain ⟨hn, hp⟩ := ih (stepLine st l)
    obtain ⟨hn2, hp2⟩ := stepLineBottom st l
    exact ⟨hn.trans hn2, hp.trans hp2⟩

theorem collapseBottom : ∀ (r : List PFrame) (t : PFrame),
    (collapseStack r t).name = (bottomFrame t r).name ∧
    (collapseStack r t).path = (bottomFrame t r).path
  | [], _ => ⟨rfl, rfl⟩
  | p :: r2, t => by
      show (collapseStack r2 _).name = _ ∧ (collapseStack r2 _).path = _
      obtain ⟨h1, h2⟩ := collapseBottom r2 ({ p with kids := p.kids ++ [frameClose t] })
      have hc := bottomFrameCongr r2 ({ p with kids := p.kids ++ [frameClose t] }) p rfl rfl
      exact ⟨h1.trans hc.1, h2.trans hc.2⟩

/-- Whatever the input, the tree `parse` returns is rooted at the synthetic
root node: name `/`, path `/`. -/
theorem dtsParseRoot (text : List Char) :
    (dtsParse text).name = str "/" ∧ (dtsParse text).path = str "/" := by
  unfold dtsParse parseTokens
  show (collapseStack ((pyTokenize text).foldl stepLine (rootFrame, [])).2
      ((pyTokenize text).foldl stepLine (rootFrame, [])).1).name = _ ∧
    (collapseStack ((pyTokenize text).foldl stepLine (rootFrame, [])).2
      ((pyTokenize text).foldl stepLine (rootFrame, [])).1).path = _
  obtain ⟨h1, h2⟩ := collapseBottom ((pyTokenize text).foldl stepLine (rootFrame, [])).2
    ((pyTokenize text).foldl stepLine (rootFrame, [])).1
  obtain ⟨h3, h4⟩ := foldlBottom (pyTokenize text) (rootFrame, [])
  exact ⟨h1.trans h3, h2.trans h4⟩

/-! ## Cell-group structure of `re.sub` and `re.findall` on `<...>` -/

theorem breakAtSpec {t : Char} : ∀ (cs a b : List Char),
    breakAt t cs = some (a, b) → cs = a ++ t :: b ∧ t ∉ a := by
  intro cs
  induction cs with
  | nil => intro a b h; simp [breakAt] at h
  | cons c rest ih =>
    intro a b h
    simp only [breakAt] at h
    by_cases hc : c = t
    · rw [if_pos hc] at h
      cases h
      subst hc
      exact ⟨rfl, by simp⟩
    · rw [if_neg hc] at h
      cases he : breakAt t rest with
      | none => rw [he] at h; cases h
      | some p =>
        obtain ⟨a2, b2⟩ := p
        rw [he] at h
        cases h
        obtain ⟨h1, h2⟩ := ih a2 b he
        constructor
        · rw [h1, List.cons_append]
        · simp only [List.mem_cons, not_or]
          exact ⟨fun hh => hc hh.symm, h2⟩

theorem breakAtNone {t : Char} : ∀ cs : List Char, t ∉ cs → breakAt t cs = none := by
  intro cs
  induction cs with
  | nil => intro _; rfl
  | cons c rest ih =>
    intro h
    simp only [List.mem_cons, not_or] at h
    simp only [breakAt]
    rw [if_neg (fun he => h.1 he.symm)]
    rw [ih h.2]

theorem breakAtYes {t : Char} : ∀ (a b : List Char), t ∉ a →
    breakAt t (a ++ t :: b) = some (a, b) := by
  intro a
  induction a with
  | nil => intro b _; simp only [List.nil_append, breakAt]; rw [if_pos trivial]
  | cons c a2 ih =>
    intro b h
    simp only [List.mem_cons, not_or] at h
    simp only [List.cons_append, breakAt]
    rw [if_neg (fun he => h.1 he.symm)]
    rw [show List.append a2 (t :: b) = a2 ++ t :: b from rfl]
    rw [ih b h.2]

theorem GTailSplit (tl : List Char) (h : GTail tl) :
    ∀ fuel, splitGroupsF fuel tl = ([], tl) := by
  intro fuel
  cases fuel with
  | zero => rfl
  | succ f =>
    simp only [splitGroupsF]
    rcases h with h1 | ⟨a, b, h1, h2⟩
    · rw [h1]
    · rw [h1]
      dsimp only
      rw [h2]

theorem splitGroupsFParts : ∀ (fuel : Nat) (cs : List Char), cs.length ≤ fuel →
    (∀ pg ∈ (splitGroupsF fuel cs).1, '<' ∉ pg.1 ∧ '>' ∉ pg.2) ∧
    GTail (splitGroupsF fuel cs).2 := by
  intro fuel
  induction fuel with
  | zero =>
    intro cs hl
    have : cs = [] := List.eq_nil_of_length_eq_zero (Nat.le_zero.mp hl)
    subst this
    exact ⟨by intro pg hpg; simp [splitGroupsF] at hpg, Or.inl rfl⟩
  | succ f ih =>
    intro cs hl
    simp only [splitGroupsF]
    cases h1 : breakAt '<' cs with
    | none => exact ⟨by intro pg hpg; simp at hpg, Or.inl h1⟩
    | some p =>
      obtain ⟨pre, rest⟩ := p
      dsimp only
      cases h2 : breakAt '>' rest with
      | none => exact ⟨by intro pg hpg; simp at hpg, Or.inr ⟨pre, rest, h1, h2⟩⟩
      | some q =>
        obtain ⟨content, rest2⟩ := q
        dsimp only
        have hlen1 := breakAtLength cs pre rest h1
        have hlen2 := breakAtLength rest content rest2 h2
        have hr2 : rest2.length ≤ f := by omega
        obtain ⟨ihp, iht⟩ := ih rest2 hr2
        refine ⟨?_, iht⟩
        intro pg hpg
        simp only [List.mem_cons] at hpg
        rcases hpg with rfl | hpg
        · exact ⟨(breakAtSpec cs pre rest h1).2, (breakAtSpec rest content rest2 h2).2⟩
        · exact ihp pg hpg

theorem splitRender : ∀ (ps : List (List Char × List Char)) (tl : List Char)
    (fuel : Nat), (∀ pg ∈ ps, '<' ∉ pg.1 ∧ '>' ∉ pg.2) → GTail tl →
    (renderGroups ps tl).length ≤ fuel →
    splitGroupsF fuel (renderGroups ps tl) = (ps, tl) := by
  intro ps
  induction ps with
  | nil => intro tl fuel _ htl _; exact GTailSplit tl htl fuel
  | cons pg rest ih =>
    intro tl fuel hps htl hlen
    obtain ⟨pre, g⟩ := pg
    simp only [renderGroups] at hlen ⊢
    cases fuel with
    | zero => simp at hlen
    | succ f =>
      simp only [splitGroupsF]
      rw [breakAtYes pre (g ++ '>' :: renderGroups rest tl) (hps (pre, g) (by simp)).1]
      dsimp only
      rw [breakAtYes g (renderGroups rest tl) (hps (pre, g) (by simp)).2]
      dsimp only
      have hlen2 : (renderGroups rest tl).length ≤ f := by
        simp only [List.length_append, List.length_cons] at hlen
        omega
      rw [ih tl f (fun pg2 hpg2 => hps pg2 (by simp [hpg2])) htl hlen2]

theorem renderSplit : ∀ (fuel : Nat) (cs : List Char),
    renderGroups (splitGroupsF fuel cs).1 (splitGroupsF fuel cs).2 = cs := by
  intro fuel
  induction fuel with
  | zero => intro cs; rfl
  | succ f ih =>
    intro cs
    simp only [splitGroupsF]
    cases h1 : breakAt '<' cs with
    | none => rfl
    | some p =>
      obtain ⟨pre, rest⟩ := p
      dsimp only
      cases h2 : breakAt '>' rest with
      | none => rfl
      | some q =>
        obtain ⟨content, rest2⟩ := q
        dsimp only
        simp only [renderGroups]
        rw [ih rest2]
        rw [(breakAtSpec cs pre rest h1).1, (breakAtSpec rest content rest2 h2).1]

/-! ## Token structure of `str.split()` and its inverse -/

theorem pyWordsFTok : ∀ (fuel : Nat) (cs tok : List Char),
    tok ∈ pyWordsF fuel cs →
    tok ≠ [] ∧ ∀ c ∈ tok, c ∈ cs ∧ isPySpace c = false := by
  intro fuel
  induction fuel with
  | zero => intro cs tok h; simp [pyWordsF] at h
  | succ f ih =>
    intro cs tok h
    simp only [pyWordsF] at h
    cases hd : cs.dropWhile isPySpace with
    | nil => rw [hd] at h; simp at h
    | cons c rest =>
      rw [hd] at h
      have hsub : ∀ x, x ∈ c :: rest → x ∈ cs := by
        intro x hx
        exact (List.dropWhile_sublist isPySpace).subset (hd ▸ hx)
      simp only [List.mem_cons] at h
      rcases h with rfl | h
      · refine ⟨by simp, ?_⟩
        intro x hx
        simp only [List.mem_cons] at hx
        rcases hx with rfl | hx
        · refine ⟨hsub x (by simp), ?_⟩
          exact dropWhileHeadNot cs x (by rw [hd]; rfl)
        · have hxr : x ∈ rest := (List.takeWhile_sublist _).subset hx
          refine ⟨hsub x (by simp [hxr]), ?_⟩
          have := List.mem_takeWhile_imp hx
          simpa using this
      · obtain ⟨hne, hmem⟩ := ih (rest.dropWhile (fun d => ¬ isPySpace d)) tok h
        refine ⟨hne, ?_⟩
        intro x hx
        obtain ⟨hx1, hx2⟩ := hmem x hx
        have hxr : x ∈ rest := (List.dropWhile_sublist _).subset hx1
        exact ⟨hsub x (by simp [hxr]), hx2⟩

theorem pyWordsTok (g tok : List Char) (h : tok ∈ pyWords g) :
    tok ≠ [] ∧ ∀ c ∈ tok, c ∈ g ∧ isPySpace c = false :=
  pyWordsFTok g.length g tok h

theorem joinSpMem : ∀ (toks : List (List Char)) (c : Char), c ∈ joinSp toks →
    c = ' ' ∨ ∃ t ∈ toks, c ∈ t := by
  intro toks
  induction toks with
  | nil => intro c hc; simp [joinSp] at hc
  | cons t ts ih =>
    intro c hc
    cases ts with
    | nil => exact Or.inr ⟨t, by simp, hc⟩
    | cons t2 ts2 =>
      rw [show joinSp (t :: t2 :: ts2) = t ++ ' ' :: joinSp (t2 :: ts2) from rfl] at hc
      simp only [List.mem_append, List.mem_cons] at hc
      rcases hc with hc | hc | hc
      · exact Or.inr ⟨t, by simp, hc⟩
      · exact Or.inl hc
      · rcases ih c hc with hc2 | ⟨t3, ht3, hc3⟩
        · exact Or.inl hc2
        · exact Or.inr ⟨t3, by simp [ht3], hc3⟩

theorem pyWordsFSpaceHead (f : Nat) (cs : List Char) :
    pyWordsF (f + 1) (' ' :: cs) = pyWordsF (f + 1) cs := by
  simp only [pyWordsF, List.dropWhile_cons]
  rw [if_pos (by decide)]

theorem pyWordsFJoin : ∀ (toks : List (List Char)) (fuel : Nat),
    (∀ t ∈ toks, t ≠ [] ∧ ∀ c ∈ t, isPySpace c = false) →
    (joinSp toks).length ≤ fuel → pyWordsF fuel (joinSp toks) = toks := by
  intro toks
  induction toks with
  | nil =>
    intro fuel _ _
    cases fuel with
    | zero => rfl
    | succ f => rfl
  | cons t ts ih =>
    intro fuel hok hlen
    obtain ⟨hne, hns⟩ := hok t (by simp)
    cases ts with
    | nil =>
      cases t with
      | nil => exact absurd rfl hne
      | cons c rest =>
        rw [show joinSp [c :: rest] = c :: rest from rfl] at hlen ⊢
        cases fuel with
        | zero => simp at hlen
        | succ f =>
          simp only [pyWordsF]
          rw [dropWhileHeadFail (c :: rest) (by
            intro h hh
            simp only [List.head?_cons, Option.some.injEq] at hh
            subst hh
            exact hns _ (by simp))]
          dsimp only
          rw [takeWhileAllSat rest (fun d hd2 => by simp [hns d (by simp [hd2])])]
          rw [dropWhileAllSat rest (fun d hd2 => by simp [hns d (by simp [hd2])])]
          rw [show pyWordsF f [] = [] from by cases f <;> rfl]
    | cons t2 ts2 =>
      have hJne : joinSp (t2 :: ts2) ≠ [] := by
        cases ts2 with
        | nil => exact (hok t2 (by simp)).1
        | cons t3 ts3 =>
          rw [show joinSp (t2 :: t3 :: ts3) = t2 ++ ' ' :: joinSp (t3 :: ts3) from rfl]
          simp
      cases t with
      | nil => exact absurd rfl hne
      | cons c rest =>
        rw [show joinSp ((c :: rest) :: t2 :: ts2) =
            (c :: rest) ++ ' ' :: joinSp (t2 :: ts2) from rfl] at hlen ⊢
        cases fuel with
        | zero => simp at hlen
        | succ f =>
          simp only [pyWordsF]
          rw [List.cons_append]
          rw [dropWhileHeadFail (c :: (rest ++ ' ' :: joinSp (t2 :: ts2))) (by
            intro h hh
            simp only [List.head?_cons, Option.some.injEq] at hh
            subst hh
            exact hns _ (by simp))]
          dsimp only
          rw [takeWhileAppendSat rest ' ' (joinSp (t2 :: ts2))
            (fun d hd2 => by simp [hns d (by simp [hd2])]) (by decide)]
          rw [dropWhileAppendSat rest ' ' (joinSp (t2 :: ts2))
            (fun d hd2 => by simp [hns d (by simp [hd2])]) (by decide)]
          cases f with
          | zero =>
            exfalso
            have h1 : 1 ≤ (joinSp (t2 :: ts2)).length := by
              cases hJ : joinSp (t2 :: ts2) with
              | nil => exact absurd hJ hJne
              | cons a b => simp
            simp only [List.length_append, List.length_cons] at hlen
            omega
          | succ f2 =>
            rw [pyWordsFSpaceHead f2 (joinSp (t2 :: ts2))]
            rw [ih (f2 + 1) (fun t4 ht4 => hok t4 (by simp [ht4])) (by
              simp only [List.length_append, List.length_cons] at hlen
              omega)]

/-! ## Character set of generated labels -/

def isLabelChar (c : Char) : Bool := c.isAlphanum || c = '_' || c = '-'

theorem labelNotSpace (c : Char) (h : isLabelChar c = true) : isPySpace c = false := by
  cases hs : isPySpace c with
  | false => rfl
  | true =>
    exfalso
    have hmem : c ∈ pySpaceChars := List.elem_iff.1 hs
    simp only [pySpaceChars] at hmem
    fin_cases hmem <;> exact absurd h (by decide)

theorem labelNotGT (c : Char) (h : isLabelChar c = true) : c ≠ '>' := by
  intro he
  subst he
  exact absurd h (by decide)

theorem hexDigitCharOK (d : Nat) (hd : d < 16) : isLabelChar (hexDigitChar d) = true := by
  interval_cases d <;> decide

theorem hexNatFChars : ∀ (fuel n : Nat) (c : Char), c ∈ hexNatF fuel n →
    isLabelChar c = true := by
  intro fuel
  induction fuel with
  | zero => intro n c hc; simp [hexNatF] at hc
  | succ f ih =>
    intro n c hc
    simp only [hexNatF] at hc
    by_cases hn : n < 16
    · rw [if_pos hn] at hc
      simp only [List.mem_singleton] at hc
      subst hc
      exact hexDigitCharOK n hn
    · rw [if_neg hn] at hc
      simp only [List.mem_append, List.mem_singleton] at hc
      rcases hc with hc | hc
      · exact ih _ c hc
      · subst hc
        exact hexDigitCharOK _ (Nat.mod_lt _ (by omega))

theorem hexIntChars (i : Int) (c : Char) (hc : c ∈ hexInt i) : isLabelChar c = true := by
  unfold hexInt at hc
  by_cases hi : i < 0
  · rw [if_pos hi] at hc
    simp only [List.mem_cons] at hc
    rcases hc with rfl | hc
    · decide
    · exact hexNatFChars _ _ c hc
  · rw [if_neg hi] at hc
    exact hexNatFChars _ _ c hc

theorem decNatFChars : ∀ (fuel n : Nat) (c : Char), c ∈ decNatF fuel n →
    isLabelChar c = true := by
  intro fuel
  induction fuel with
  | zero => intro n c hc; simp [decNatF] at hc
  | succ f ih =>
    intro n c hc
    simp only [decNatF] at hc
    by_cases hn : n < 10
    · rw [if_pos hn] at hc
      simp only [List.mem_singleton] at hc
      subst hc
      interval_cases n <;> decide
    · rw [if_neg hn] at hc
      simp only [List.mem_append, List.mem_singleton] at hc
      rcases hc with hc | hc
      · exact ih _ c hc
      · subst hc
        have : n % 10 < 10 := Nat.mod_lt _ (by omega)
        interval_cases h : n % 10 <;> decide

theorem sanitizeLabelChars (nm : List Char) (c : Char) (hc : c ∈ sanitizeLabel nm) :
    isLabelChar c = true := by
  simp only [sanitizeLabel] at hc
  have hmem : ∀ x, x ∈ (nm.takeWhile (· ≠ '@')).map
      (fun d => if d.isAlphanum || d = '_' then d else '_') → isLabelChar x = true := by
    intro x hx
    obtain ⟨y, _, hxy⟩ := List.mem_map.1 hx
    by_cases hya : y.isAlphanum || y = '_'
    · rw [if_pos hya] at hxy
      subst hxy
      simp only [isLabelChar, Bool.or_eq_true]
      simp only [Bool.or_eq_true] at hya
      rcases hya with hy2 | hy2
      · exact Or.inl (Or.inl hy2)
      · exact Or.inl (Or.inr (by simpa using hy2))
    · rw [if_neg hya] at hxy
      subst hxy
      decide
  cases hs : (nm.takeWhile (· ≠ '@')).map
      (fun d => if d.isAlphanum || d = '_' then d else '_') with
  | nil =>
    rw [hs] at hc
    rw [show str "_n" = ['_', 'n'] from rfl] at hc
    simp only [List.mem_cons, List.not_mem_nil, or_false] at hc
    rcases hc with rfl | rfl <;> decide
  | cons a rest =>
    rw [hs] at hc
    dsimp only at hc
    by_cases ha : a.isAlpha || a = '_'
    · rw [if_pos ha] at hc
      exact hmem c (hs ▸ hc)
    · rw [if_neg ha] at hc
      simp only [List.mem_cons] at hc
      rcases hc with rfl | hc
      · decide
      · exact hmem c (hs ▸ (List.mem_cons.2 hc))

theorem pickFreshGoChars (used : List (List Char)) (c0 : List Char)
    (h0 : ∀ x ∈ c0, isLabelChar x = true) :
    ∀ (fuel i : Nat) (c : Char), c ∈ pickFreshGo used c0 fuel i →
    isLabelChar c = true := by
  intro fuel
  induction fuel with
  | zero =>
    intro i c hc
    simp only [pickFreshGo, List.mem_append, List.mem_cons] at hc
    rcases hc with hc | rfl | hc
    · exact h0 c hc
    · decide
    · exact decNatFChars _ _ c hc
  | succ f ih =>
    intro i c hc
    simp only [pickFreshGo] at hc
    by_cases hin : c0 ++ '_' :: decNat i ∈ used
    · rw [if_pos hin] at hc
      exact ih _ c hc
    · rw [if_neg hin] at hc
      simp only [List.mem_append, List.mem_cons] at hc
      rcases hc with hc | rfl | hc
      · exact h0 c hc
      · decide
      · exact decNatFChars _ _ c hc

theorem pickFreshChars (used : List (List Char)) (c0 : List Char)
    (h0 : ∀ x ∈ c0, isLabelChar x = true) (c : Char) (hc : c ∈ pickFresh used c0) :
    isLabelChar c = true := by
  unfold pickFresh at hc
  by_cases hin : c0 ∈ used
  · rw [if_pos hin] at hc
    exact pickFreshGoChars used c0 h0 _ _ c hc
  · rw [if_neg hin] at hc
    exact h0 c hc

theorem assignLabelsChars : ∀ (phM : List (Int × DTNode)) (used : List (List Char))
    (ph : Int) (lbl : List Char), (ph, lbl) ∈ assignLabels phM used →
    ∀ c ∈ lbl, isLabelChar c = true := by
  intro phM
  induction phM with
  | nil => intro used ph lbl h; simp [assignLabels] at h
  | cons kv rest ih =>
    intro used ph lbl h c hc
    obtain ⟨ph0, n0⟩ := kv
    simp only [assignLabels, List.mem_cons] at h
    rcases h with h | h
    · injection h with h1 h2
      subst h2
      apply pickFreshChars _ _ ?_ c hc
      intro x hx
      simp only [List.mem_append, List.mem_cons] at hx
      rcases hx with hx | rfl | hx
      · by_cases hb : (sanitizeLabel n0.name).isEmpty
        · rw [if_pos hb] at hx
          rw [show str "node" = ['n', 'o', 'd', 'e'] from rfl] at hx
          simp only [List.mem_cons, List.not_mem_nil, or_false] at hx
          rcases hx with rfl | rfl | rfl | rfl <;> decide
        · rw [if_neg hb] at hx
          exact sanitizeLabelChars n0.name x hx
      · decide
      · exact hexIntChars ph0 x hx
    · exact ih _ ph lbl h c hc

theorem assocGetIMem {α : Type} : ∀ (m : List (Int × α)) (k : Int) (v : α),
    assocGetI m k = some v → (k, v) ∈ m := by
  intro m
  induction m with
  | nil => intro k v h; simp [assocGetI] at h
  | cons kv rest ih =>
    intro k v h
    obtain ⟨k2, v2⟩ := kv
    simp only [assocGetI] at h
    by_cases hk : k2 = k
    · rw [if_pos hk] at h
      cases h
      subst hk
      simp
    · rw [if_neg hk] at h
      simp [ih k v h]

theorem assignLabelsTotal : ∀ (phM : List (Int × DTNode)) (used : List (List Char))
    (num : Int), (assocGetI phM num).isSome = true →
    (assocGetI (assignLabels phM used) num).isSome = true := by
  intro phM
  induction phM with
  | nil => intro used num h; simp [assocGetI] at h
  | cons kv rest ih =>
    intro used num h
    obtain ⟨ph, n⟩ := kv
    simp only [assignLabels]
    simp only [assocGetI] at h ⊢
    by_cases hk : ph = num
    · rw [if_pos hk]
      rfl
    · rw [if_neg hk] at h ⊢
      exact ih _ num h

theorem pyIntAmp (lbl : List Char) (h : ∀ c ∈ lbl, isLabelChar c = true) :
    pyInt ('&' :: lbl) = none := by
  have hstrip : pyStrip ('&' :: lbl) = '&' :: lbl := by
    have := pyStripClean [] ('&' :: lbl) (by simp)
      (by
        intro x hx
        simp only [List.head?_cons, Option.some.injEq] at hx
        subst hx
        rfl)
      (by
        intro e he
        have hmem : e ∈ '&' :: lbl := by
          rcases List.mem_getLast?_eq_getLast (Option.mem_def.2 he) with ⟨h9, heq⟩
          rw [heq]
          exact List.getLast_mem h9
        rcases List.mem_cons.1 hmem with rfl | hmem2
        · rfl
        · exact labelNotSpace e (h e hmem2))
    simpa using this
  unfold pyInt
  rw [hstrip]
  dsimp only
  rw [if_neg (by decide), if_neg (by decide)]
  have hbody : pyIntBody ('&' :: lbl) = none := by
    simp only [pyIntBody]
    rw [if_neg (by decide), if_neg (by decide)]
  rw [hbody]
  rfl

/-! ## The rewrite step maps group tokens one-to-one -/

theorem rwTokenGood (phM : List (Int × DTNode)) (lblM : List (Int × List Char))
    (hlbl : ∀ ph lbl, (ph, lbl) ∈ lblM → ∀ c ∈ lbl, isLabelChar c = true)
    (tok : List Char) (hne : tok ≠ [])
    (hch : ∀ c ∈ tok, isPySpace c = false ∧ c ≠ '>') :
    rwToken phM lblM tok ≠ [] ∧
    ∀ c ∈ rwToken phM lblM tok, isPySpace c = false ∧ c ≠ '>' := by
  unfold rwToken
  cases hpi : pyInt tok with
  | none => exact ⟨hne, hch⟩
  | some num =>
    cases hph : assocGetI phM num with
    | none => simp only [hph]; exact ⟨hne, hch⟩
    | some n =>
      cases hlb : assocGetI lblM num with
      | none => simp only [hph, hlb]; exact ⟨hne, hch⟩
      | some lbl =>
        simp only [hph, hlb]
        refine ⟨by simp, ?_⟩
        intro c hc
        rcases List.mem_cons.1 hc with rfl | hc2
        · exact ⟨by decide, by decide⟩
        · have hl := hlbl num lbl (assocGetIMem lblM num lbl hlb) c hc2
          exact ⟨labelNotSpace c hl, labelNotGT c hl⟩

theorem noLTGroups (v : List Char) (h : ¬ v.contains '<' = true) :
    splitGroups v = ([], v) := by
  have hnm : '<' ∉ v := fun hm => h (List.elem_iff.mpr hm)
  unfold splitGroups
  cases hl : v.length with
  | zero => rfl
  | succ f =>
    simp only [splitGroupsF]
    rw [breakAtNone v hnm]

theorem groupTokensRewrite (v : List Char) (phM : List (Int × DTNode))
    (lblM : List (Int × List Char))
    (hlbl : ∀ ph lbl, (ph, lbl) ∈ lblM → ∀ c ∈ lbl, isLabelChar c = true) :
    groupTokens (replacePhandlesInValue v phM lblM) =
      (groupTokens v).map (rwToken phM lblM) := by
  unfold replacePhandlesInValue
  by_cases hlt : v.contains '<' = true
  · rw [if_neg (fun hn => hn hlt)]
    obtain ⟨hparts, htail⟩ := splitGroupsFParts v.length v le_rfl
    have hparts2 : ∀ pg ∈ (splitGroups v).1, '<' ∉ pg.1 ∧ '>' ∉ pg.2 := hparts
    have htail2 : GTail (splitGroups v).2 := htail
    have hps' : ∀ pg ∈ (splitGroups v).1.map
        (fun pg => (pg.1, joinSp ((pyWords pg.2).map (rwToken phM lblM)))),
        '<' ∉ pg.1 ∧ '>' ∉ pg.2 := by
      intro pg' hpg'
      obtain ⟨pg, hpg, rfl⟩ := List.mem_map.1 hpg'
      refine ⟨(hparts2 pg hpg).1, ?_⟩
      intro hmem
      rcases joinSpMem _ '>' hmem with hsp | ⟨t2, ht2, hgt⟩
      · exact absurd hsp (by decide)
      · obtain ⟨tok, htok, rfl⟩ := List.mem_map.1 ht2
        obtain ⟨hne, hch⟩ := pyWordsTok pg.2 tok htok
        have hch2 : ∀ c ∈ tok, isPySpace c = false ∧ c ≠ '>' := by
          intro c hc
          obtain ⟨hcg, hcs⟩ := hch c hc
          exact ⟨hcs, fun he => (hparts2 pg hpg).2 (he ▸ hcg)⟩
        obtain ⟨-, hall⟩ := rwTokenGood phM lblM hlbl tok hne hch2
        exact (hall '>' hgt).2 rfl
    have hsplit : splitGroups (renderGroups
        ((splitGroups v).1.map
          (fun pg => (pg.1, joinSp ((pyWords pg.2).map (rwToken phM lblM)))))
        (splitGroups v).2) =
        ((splitGroups v).1.map
          (fun pg => (pg.1, joinSp ((pyWords pg.2).map (rwToken phM lblM)))),
         (splitGroups v).2) :=
      splitRender _ _ _ hps' htail2 le_rfl
    unfold groupTokens findGroups
    rw [hsplit]
    dsimp only
    have haux : ∀ ps : List (List Char × List Char),
        (∀ pg ∈ ps, '>' ∉ pg.2) →
        ps.flatMap (fun pg => pyWords (joinSp ((pyWords pg.2).map (rwToken phM lblM)))) =
        (ps.flatMap (fun pg => pyWords pg.2)).map (rwToken phM lblM) := by
      intro ps
      induction ps with
      | nil => intro _; rfl
      | cons pg rest ih =>
        intro hgt
        simp only [List.flatMap_cons, List.map_append]
        rw [ih (fun pg2 h2 => hgt pg2 (by simp [h2]))]
        congr 1
        have htoks : ∀ t ∈ (pyWords pg.2).map (rwToken phM lblM),
            t ≠ [] ∧ ∀ c ∈ t, isPySpace c = false := by
          intro t ht
          obtain ⟨tok, htok, rfl⟩ := List.mem_map.1 ht
          obtain ⟨hne, hch⟩ := pyWordsTok pg.2 tok htok
          have hch2 : ∀ c ∈ tok, isPySpace c = false ∧ c ≠ '>' := by
            intro c hc
            obtain ⟨hcg, hcs⟩ := hch c hc
            exact ⟨hcs, fun he => hgt pg (by simp) (he ▸ hcg)⟩
          obtain ⟨hne2, hall⟩ := rwTokenGood phM lblM hlbl tok hne hch2
          exact ⟨hne2, fun c hc => (hall c hc).1⟩
        exact pyWordsFJoin _ _ htoks le_rfl
    rw [List.flatMap_map, List.flatMap_map, List.flatMap_map]
    exact haux _ (fun pg hpg => (hparts2 pg hpg).2)
  · rw [if_pos hlt]
    have hsg := noLTGroups v hlt
    unfold groupTokens findGroups
    rw [hsg]
    rfl

/-- C3: in `export_dtsi` output, no token inside a `<...>` group of a
rewritten property value parses to an integer that is a phandle of a node
inside the exported subtree: every such cell has been replaced by an
`&label` reference (which no longer parses as an integer). -/
theorem c3_no_internal_numeral_leak (root n : DTNode) (k v tok : List Char) (m : Int)
    (hn : n ∈ collectNodes root) (hkv : (k, v) ∈ n.properties)
    (htok : tok ∈ groupTokens (replacePhandlesInValue v
      (buildPhMap (collectNodes root))
      (assignLabels (buildPhMap (collectNodes root)) [])))
    (hm : pyInt tok = some m) :
    assocGetI (buildPhMap (collectNodes root)) m = none := by
  rw [groupTokensRewrite v _ _
    (fun ph lbl hmem => assignLabelsChars _ [] ph lbl hmem)] at htok
  obtain ⟨tok0, htok0, rfl⟩ := List.mem_map.1 htok
  unfold rwToken at hm
  cases hpi : pyInt tok0 with
  | none =>
    simp only [hpi] at hm
    cases hm
  | some num =>
    simp only [hpi] at hm
    cases hph : assocGetI (buildPhMap (collectNodes root)) num with
    | none =>
      simp only [hph] at hm
      rw [hpi] at hm
      cases hm
      exact hph
    | some nd =>
      cases hlb : assocGetI (assignLabels (buildPhMap (collectNodes root)) []) num with
      | none =>
        have := assignLabelsTotal (buildPhMap (collectNodes root)) [] num
          (by rw [hph]; rfl)
        rw [hlb] at this
        cases this
      | some lbl =>
        simp only [hph, hlb] at hm
        have hchars : ∀ c ∈ lbl, isLabelChar c = true :=
          assignLabelsChars _ [] num lbl (assocGetIMem _ num lbl hlb)
        rw [pyIntAmp lbl hchars] at hm
        cases hm

/-- C3 witness: in the provider/consumer scenario tree, the cell `0` of the
rewritten `clocks` value is a group token that parses to an integer, and
that integer is no subtree phandle. -/
theorem c3_scenario_witness :
    assocGetI (buildPhMap (collectNodes c4tree)) 0 = none :=
  c3_no_internal_numeral_leak c4tree consumerNode (str "clocks") (str "<0x10 0>")
    (str "0") 0
    (by
      rw [show collectNodes c4tree = [c4tree, providerNode, consumerNode] from rfl]
      exact List.mem_cons_of_mem _ (List.mem_cons_of_mem _ (List.mem_cons_self _ _)))
    (by
      rw [show consumerNode.properties = [(str "clocks", str "<0x10 0>")] from rfl]
      exact List.mem_cons_self _ _)
    (by
      rw [show groupTokens (replacePhandlesInValue (str "<0x10 0>")
          (buildPhMap (collectNodes c4tree))
          (assignLabels (buildPhMap (collectNodes c4tree)) [])) =
          [str "&clk_10", str "0"] from rfl]
      exact List.mem_cons_of_mem _ (List.mem_cons_self _ _))
    rfl

/-- C10 (amended): when no group token of a stored value is rewritten and
the spacing inside every cell group is already canonical (single spaces, no
surrounding whitespace), `_replace_phandles_in_value` is the identity. -/
theorem c10_norewrite_identity (v : List Char) (phM : List (Int × DTNode))
    (lblM : List (Int × List Char))
    (hfix : ∀ tok ∈ groupTokens v, rwToken phM lblM tok = tok)
    (hcanon : ∀ g ∈ findGroups v, joinSp (pyWords g) = g) :
    replacePhandlesInValue v phM lblM = v := by
  unfold replacePhandlesInValue
  by_cases hlt : v.contains '<' = true
  · rw [if_neg (fun hn => hn hlt)]
    have hfixg : ∀ pg ∈ (splitGroups v).1,
        (pg.1, joinSp ((pyWords pg.2).map (rwToken phM lblM))) = pg := by
      intro pg hpg
      have hg : pg.2 ∈ findGroups v := List.mem_map_of_mem Prod.snd hpg
      have htoks : (pyWords pg.2).map (rwToken phM lblM) = pyWords pg.2 := by
        have hid : ∀ tok ∈ pyWords pg.2, rwToken phM lblM tok = tok := by
          intro tok htok
          exact hfix tok (List.mem_flatMap.2 ⟨pg.2, hg, htok⟩)
        calc (pyWords pg.2).map (rwToken phM lblM)
            = (pyWords pg.2).map id := List.map_congr_left hid
          _ = pyWords pg.2 := List.map_id _
      rw [htoks, hcanon pg.2 hg]
    have hmap : (splitGroups v).1.map
        (fun pg => (pg.1, joinSp ((pyWords pg.2).map (rwToken phM lblM)))) =
        (splitGroups v).1 := by
      calc (splitGroups v).1.map
            (fun pg => (pg.1, joinSp ((pyWords pg.2).map (rwToken phM lblM))))
          = (splitGroups v).1.map id := List.map_congr_left hfixg
        _ = (splitGroups v).1 := List.map_id _
    show renderGroups ((splitGroups v).1.map
        (fun pg => (pg.1, joinSp ((pyWords pg.2).map (rwToken phM lblM)))))
      (splitGroups v).2 = v
    rw [hmap]
    exact renderSplit v.length v
  · rw [if_pos hlt]

/-- C10 counterexample: a value whose only group carries no rewritable
token is still reformatted, because the engine re-joins the tokens of
every group with single spaces. -/
theorem c10_spacing_counterexample :
    replacePhandlesInValue (str "<1  2>") [] [] = str "<1 2>" ∧
    str "<1 2>" ≠ str "<1  2>" := ⟨rfl, by decide⟩

/-- C10 witness: a canonically spaced value with no matching tokens passes
through unchanged. -/
theorem c10_witness : replacePhandlesInValue (str "<0x99 7>") [] [] = str "<0x99 7>" :=
  c10_norewrite_identity (str "<0x99 7>") [] [] (by decide) (by decide)

/-! ## Leading-zero integer literals (claim C8) -/

theorem pyIntBodyLeadingZero (ds : List Char)
    (hdig : ∀ c ∈ ds, c.isDigit = true) (hnz : ∃ c ∈ ds, c ≠ '0') :
    pyIntBody ('0' :: ds) = none := by
  cases ds with
  | nil => simp at hnz
  | cons d rest2 =>
    simp only [pyIntBody]
    rw [if_pos trivial]
    have hd : d.isDigit = true := hdig d (by simp)
    have hx : ¬ (d = 'x' ∨ d = 'X') := by
      rintro (rfl | rfl) <;> exact absurd hd (by decide)
    have ho : ¬ (d = 'o' ∨ d = 'O') := by
      rintro (rfl | rfl) <;> exact absurd hd (by decide)
    have hb : ¬ (d = 'b' ∨ d = 'B') := by
      rintro (rfl | rfl) <;> exact absurd hd (by decide)
    rw [if_neg hx, if_neg ho, if_neg hb]
    cases hdr : digitRun 10 0 ('0' :: d :: rest2) with
    | none => simp only [hdr]
    | some v =>
      simp only [hdr]
      obtain ⟨c, hc, hcn⟩ := hnz
      have hany : ('0' :: d :: rest2).any (fun e => e.isDigit && e != '0') = true := by
        refine List.any_eq_true.2 ⟨c, by simp [hc], ?_⟩
        rw [hdig c hc]
        simpa [bne_iff_ne] using hcn
      rw [if_pos hany]

/-- C8 (amended): a cell token of a leading `0` followed by digits is NOT
read as C octal: Python `int(tok, 0)` rejects it (unless every digit is
zero), so the token contributes no cell at all, while `0x` hex, `0o` octal
and plain decimal parse as C does. -/
theorem c8_leading_zero_rejected (ds : List Char)
    (hdig : ∀ c ∈ ds, c.isDigit = true) (hnz : ∃ c ∈ ds, c ≠ '0') :
    pyIntBody ('0' :: ds) = none ∧
    parseCellsVal (str "<010>") = [] ∧
    parseCellsVal (str "<0x10>") = [(16 : Int)] ∧
    parseCellsVal (str "<0o10>") = [(8 : Int)] ∧
    parseCellsVal (str "<10>") = [(10 : Int)] :=
  ⟨pyIntBodyLeadingZero ds hdig hnz, rfl, rfl, rfl, rfl⟩

/-- C8 counterexample: extracting cells from the group `<010>` does not
yield the octal value 8 (it yields nothing). -/
theorem c8_octal_counterexample : parseCellsVal (str "<010>") ≠ [(8 : Int)] := by
  decide

/-- C8 witness: the amended statement at the token `010`. -/
theorem c8_witness :
    pyIntBody ('0' :: ['1', '0']) = none ∧
    parseCellsVal (str "<010>") = [] ∧
    parseCellsVal (str "<0x10>") = [(16 : Int)] ∧
    parseCellsVal (str "<0o10>") = [(8 : Int)] ∧
    parseCellsVal (str "<10>") = [(10 : Int)] :=
  c8_leading_zero_rejected ['1', '0'] (by decide) ⟨'1', by simp, by decide⟩

/-! ## Property value storage (claim C9) -/

/-- C9 (amended): a property statement `key = value;` stores the stripped
value, with ALL leading and trailing double quotes removed whenever the
value both starts and ends with a quote — also for compound values such as
comma-separated string lists, which are therefore not stored verbatim. -/
theorem c9_property_storage (st : PFrame × List PFrame) (k v : List Char)
    (hk : KeyOK k) (hnb : NoBreak v) (hps : pyStrip v = v) :
    stepLine st (k ++ str " = " ++ v ++ [';']) =
      ({ st.1 with props := assocSet st.1.props k
                     (if v.head? = some '"' ∧ lastIs v '"' then stripQuotes v
                      else v) }, st.2) := by
  have hline : k ++ str " = " ++ v ++ [';'] = serPropLine 0 k v := by
    simp [serPropLine, indentOf]
  rw [hline]
  have hstrip := pyStripPropLine 0 k v hk
  simp only [stepLine, hstrip]
  rw [if_neg (by simp [str])]
  have hlast : lastIs (k ++ str " = " ++ v ++ [';']) '\x7b' = false := by
    rw [show k ++ str " = " ++ v ++ [';'] = (k ++ str " = " ++ v) ++ [';'] from by
        simp [List.append_assoc]]
    rw [lastIsConcat]
    rfl
  rw [hlast]
  rw [if_neg (by simp)]
  have hnesemi : k ++ str " = " ++ v ++ [';'] ≠ str "\x7d;" := by
    obtain ⟨hkne, hkall⟩ := hk
    cases k with
    | nil => exact absurd rfl hkne
    | cons a as =>
      intro heq
      have : a = '\x7d' := by
        have := congrArg List.head? heq
        simpa [str] using this
      subst this
      exact absurd (hkall '\x7d' (by simp)) (by decide)
  rw [if_neg hnesemi]
  rw [propertyMatchOnLine k v hk hnb hps]
  dsimp only
  rw [hps]

/-- C9 counterexample: the compound value of `k = "a", "b";` is stored as
`a", "b`, not verbatim. -/
theorem c9_compound_counterexample :
    assocGet (dtsParse c9text).properties (str "k") = some (str "a\x22, \x22b") ∧
    str "a\x22, \x22b" ≠ str "\x22a\x22, \x22b\x22" := ⟨rfl, by decide⟩

/-- C9 witness: the storage rule evaluated on the compound value. -/
theorem c9_witness :
    stepLine (rootFrame, []) (str "k" ++ str " = " ++ str "\x22a\x22, \x22b\x22" ++ [';']) =
      ({ rootFrame with props := [(str "k", str "a\x22, \x22b")] }, []) := by
  rw [c9_property_storage (rootFrame, []) (str "k") (str "\x22a\x22, \x22b\x22")
    ⟨by decide, by decide⟩ (by unfold NoBreak; decide) (by decide)]
  rfl

/-! ## Classifier against the binding index (claim C5) -/

/-- C5 (amended): with a bindings index loaded, the classifier answers
`bindings verdict OR heuristic verdict`: a positive binding answer is
final, but a negative one falls back to the name heuristic, so the result
is not an iff against the binding entry alone. -/
theorem c5_binding_or_heuristic (idx : BindingsIndex) (n : DTNode) (key : List Char) :
    nodePropMayReferencePhandle (some idx) n key =
      (idx.mayReferencePhandle
        (stripQuotes (pyStrip ((assocGet n.properties (str "compatible")).getD []))) key ||
       propMayReferencePhandle key) := by
  unfold nodePropMayReferencePhandle
  dsimp only
  by_cases hc : (stripQuotes (pyStrip
      ((assocGet n.properties (str "compatible")).getD []))).isEmpty
  · rw [if_pos hc]
    have hfalse : idx.mayReferencePhandle
        (stripQuotes (pyStrip ((assocGet n.properties (str "compatible")).getD []))) key =
        false := by
      unfold BindingsIndex.mayReferencePhandle
      rw [if_pos hc]
    rw [hfalse, Bool.false_or]
  · rw [if_neg hc]
    by_cases hb : idx.mayReferencePhandle
        (stripQuotes (pyStrip ((assocGet n.properties (str "compatible")).getD []))) key =
        true
    · rw [if_pos hb, hb, Bool.true_or]
    · rw [if_neg hb]
      have hb2 : idx.mayReferencePhandle
          (stripQuotes (pyStrip ((assocGet n.properties (str "compatible")).getD []))) key =
          false := Bool.eq_false_iff.mpr hb
      rw [hb2, Bool.false_or]

/-- C5 counterexample: for a node whose compatible `vendor,x` is present in
the index with property set containing exactly `clocks`, the classifier
still approves `resets` (heuristic fallback) although the binding entry
rejects it. -/
theorem c5_fallback_counterexample :
    nodePropMayReferencePhandle (some c5idx) c5node (str "resets") = true ∧
    c5idx.mayReferencePhandle (str "vendor,x") (str "resets") = false := ⟨rfl, rfl⟩

/-! ## Bindings loader on items-as-list schemas (claim C6) -/

/-- C6 (code bug): a schema whose `clocks` property declares `items` as a
YAML LIST of schemas (the form the spec, the repository's own
`test_bindings.py` and real devicetree bindings use) is not recognised by
`_schema_is_phandle`, which only inspects `items` when it is a mapping; the
document therefore contributes no phandle properties and its compatible is
absent from the index, while the mapping form is indexed. -/
theorem c6_items_list_not_indexed :
    assocGet (loadBindingsDocs [c6doc]).compatToPhandleProps (str "vendor,x") = none ∧
    assocGet (loadBindingsDocs [c6docDict]).compatToPhandleProps (str "vendor,x") =
      some [str "clocks"] := ⟨rfl, rfl⟩

/-! ## users_of (claim C7) -/

/-- C7: a target without a parseable phandle has no users, and in the
provider/consumer scenario with no bindings loaded, `users_of(provider)`
is exactly the one-element list holding `consumer@1`. -/
theorem c7_users_of :
    (∀ (st : XrefState) (target : DTNode),
      parseSingleCell (assocGet target.properties (str "phandle")) = none →
      nodesUsing st target = []) ∧
    nodesUsing (buildIndex c4tree none) providerNode = [consumerNode] := by
  constructor
  · intro st target h
    unfold nodesUsing
    rw [h]
  · rfl

/-- C7 witness: the no-phandle clause applied to the scenario root. -/
theorem c7_witness : nodesUsing (buildIndex c4tree none) c4tree = [] :=
  c7_users_of.1 (buildIndex c4tree none) c4tree rfl

/-! ## Export labels in the scenario (claim C4) -/

/-- C4 (amended): exporting `consumer@1` alone retains `<0x10 0>`
unchanged, and exporting the whole root rewrites it to `<&clk_10 0>` —
the label is derived from the node NAME `clk@0` (sanitised, with the
phandle in hex as suffix), not from the source label `provider`. -/
theorem c4_export_scenario :
    dtsParse c4text = c4tree ∧
    exportDtsi consumerNode =
      str "// Exported from path: /consumer@1\nconsumer@1 \x7b\n  clocks = <0x10 0>;\n\x7d;\n" ∧
    exportDtsi c4tree =
      str "// Exported from path: /\n/ \x7b\n  clk_10: clk@0 \x7b\n  \x7d;\n  consumer@1 \x7b\n    clocks = <&clk_10 0>;\n  \x7d;\n\x7d;\n" :=
  ⟨rfl, rfl, rfl⟩

/-- C4 counterexample: the whole-root export never mentions `provider_10`;
the rewritten reference uses `clk_10`. -/
theorem c4_label_counterexample :
    containsSub (exportDtsi c4tree) (str "provider_10") = false ∧
    containsSub (exportDtsi c4tree) (str "<&clk_10 0>") = true := ⟨rfl, rfl⟩

/-! ## Parser totality and the malformed one-liner (claim C1) -/

/-- C1 (amended): `parse` is total and always returns a tree rooted at
name `/`, path `/`; but the malformed ONE-LINE source `/ \x7b a \x7b \x7d`
produces no `a` child (the whole input collapses into a single buffered
statement that matches nothing), whereas the well-bracketed multi-line
variant does. -/
theorem c1_root_total :
    (∀ text, (dtsParse text).name = str "/" ∧ (dtsParse text).path = str "/") ∧
    (dtsParse c1goodText).children =
      DTNodeList.cons (.mk (str "a") (str "/a") [] .nil) .nil :=
  ⟨dtsParseRoot, rfl⟩

/-- C1 counterexample: the claimed malformed one-liner parses to a bare
root with no children at all. -/
theorem c1_missing_child_counterexample :
    dtsParse c1badText = DTNode.mk (str "/") (str "/") [] .nil := rfl

/-! ## Round-trip claims (claim C2) -/

theorem invNProvider : InvN (str "/") providerNode :=
  show InvN (str "/") (DTNode.mk (str "clk@0") (mkPath (str "/") (str "clk@0"))
      [(str "phandle", str "<0x10>")] .nil) from
    InvN.mk _ _ _ _ ⟨by decide, by decide⟩
      ⟨by
        intro kv hkv
        simp only [List.mem_singleton] at hkv
        subst hkv
        exact ⟨⟨by decide, by decide⟩,
          ⟨by unfold NoBreak; decide, by decide, by decide⟩⟩,
       by decide⟩
      (by intro c2 hc2; simp [DTNodeList.toList] at hc2)

theorem invNConsumer : InvN (str "/") consumerNode :=
  show InvN (str "/") (DTNode.mk (str "consumer@1") (mkPath (str "/") (str "consumer@1"))
      [(str "clocks", str "<0x10 0>")] .nil) from
    InvN.mk _ _ _ _ ⟨by decide, by decide⟩
      ⟨by
        intro kv hkv
        simp only [List.mem_singleton] at hkv
        subst hkv
        exact ⟨⟨by decide, by decide⟩,
          ⟨by unfold NoBreak; decide, by decide, by decide⟩⟩,
       by decide⟩
      (by intro c2 hc2; simp [DTNodeList.toList] at hc2)

theorem invRootC4 : InvRoot c4tree :=
  ⟨[], .cons providerNode (.cons consumerNode .nil), rfl,
   ⟨by intro kv hkv; exact absurd hkv (List.not_mem_nil kv), by decide⟩,
   by
     intro c hc
     rw [show DTNodeList.toList (DTNodeList.cons providerNode
         (.cons consumerNode .nil)) = [providerNode, consumerNode] from rfl] at hc
     rcases List.mem_cons.1 hc with rfl | hc2
     · exact invNProvider
     · rcases List.mem_cons.1 hc2 with rfl | hc3
       · exact invNConsumer
       · exact absurd hc3 (List.not_mem_nil c)⟩

/-- C2 (amended): for a tree in parser normal form (`InvRoot`: synthetic
root, regex-shaped names, keys without duplicates, stripped unquoted
break-free values) whose serialization contains no comment openers,
re-parsing the serialization reproduces the tree EXACTLY — in particular
with the same node count, path set and per-path property keys.  Without
the comment-stability proviso the round trip can lose nodes. -/
theorem c2_roundtrip_exact (t : DTNode) (hinv : InvRoot t)
    (hsc : stripComments (serializeTree t) = serializeTree t) :
    dtsParse (serializeTree t) = t :=
  parseSerialize t hinv hsc

/-- C2 counterexample: property values containing `*/` and `/*` reorder
into comment position under serialization, and the re-parse drops a node:
the claimed node-count equality fails. -/
theorem c2_roundtrip_counterexample :
    nodeCount (dtsParse (serializeTree (dtsParse c2text))) ≠
      nodeCount (dtsParse c2text) := by decide

set_option maxRecDepth 8192 in
/-- C2 witness: the exact round trip on the provider/consumer tree. -/
theorem c2_witness : dtsParse (serializeTree c4tree) = c4tree :=
  c2_roundtrip_exact c4tree invRootC4 rfl
